import Mathlib

/-!
Verification of the nuclode deterministic analysis pipeline.

This file gives a shallow embedding, in Lean, of the core components of the
nuclode codebase-analysis engine (graph partitioner, oversized-group splitter,
schema validator, cost tracker, pipeline runner, bead reducer and the bd CLI
wrappers), translated from the Python sources in
`knowledge/engine/chunking.py`, `knowledge/engine/pipeline.py`,
`knowledge/engine/schema.py`, `knowledge/engine/cost_tracker.py`,
`knowledge/recipes/codebase_analysis/beads_tools.py` and
`recipes/codebase_analysis/beads_tools.py`, together with theorems settling
the specification claims about those components.

Modelling conventions:
* Python strings are Lean `String`s; character-level computations work on
  `String.data` (a `List Char`) because those reduce in the kernel.
* Python dicts are modelled as association lists with insert-overwrite
  semantics (`dictInsert`), or as total functions when they are inputs
  (a missing key maps to the documented default).
* Python `sorted` on strings is modelled by insertion sort under the
  code-point lexicographic order (`pySorted`); the two agree elementwise on
  every input (stability is irrelevant because equal strings are equal).
* The union-find `find` uses a fuel parameter bounding the length of the
  parent chain; the forest invariant proved below shows a chain never
  exceeds the number of namespaces, so the fuel used by
  `partitionFlowGroups` is never exhausted on the code's actual states.
* Subprocess and network calls are modelled by explicit call oracles; the
  value computed by a wrapper is the list of argument vectors it would run.
-/

namespace Nuclode

/-! ## Character and string helpers -/

/-- The backtick character (written via its code point to keep the source
free of raw backticks). -/
def backtick : Char := Char.ofNat 96

/-- Left brace character. -/
def lbrace : Char := Char.ofNat 123

/-- Right brace character. -/
def rbrace : Char := Char.ofNat 125

/-- Strict code-point lexicographic order on character lists, as used by
Python's `<` on `str`. -/
def charListLt : List Char → List Char → Bool
  | [], [] => false
  | [], _ :: _ => true
  | _ :: _, [] => false
  | a :: as, b :: bs => if a = b then charListLt as bs else decide (a < b)

/-- Reflexive code-point lexicographic order on character lists. -/
def charListLe : List Char → List Char → Bool
  | [], _ => true
  | _ :: _, [] => false
  | a :: as, b :: bs => if a = b then charListLe as bs else decide (a < b)

/-- Python's `<` on strings (code-point lexicographic). -/
def strLtB (a b : String) : Bool := charListLt a.data b.data

/-- Python's `<=` on strings, as a proposition usable by `List.insertionSort`. -/
def strLe (a b : String) : Prop := charListLe a.data b.data = true

instance : DecidableRel strLe := fun a b =>
  (inferInstance : Decidable (charListLe a.data b.data = true))

/-- Model of Python's `sorted` builtin on a list of strings. -/
def pySorted (l : List String) : List String := List.insertionSort strLe l

/-- Order on namespace records by name, used by the splitter's
`sorted(..., key=lambda n: n.name)`. -/
def nsNameLe {α : Type} (nameOf : α → String) (a b : α) : Prop :=
  strLe (nameOf a) (nameOf b)

/-- Python's `str.split(sep)` for a single-character separator. -/
def splitOnChar (sep : Char) : List Char → List (List Char)
  | [] => [[]]
  | c :: cs =>
    let r := splitOnChar sep cs
    if c = sep then [] :: r
    else
      match r with
      | [] => [[c]]
      | g :: gs => (c :: g) :: gs

/-- Final dotted segment of a namespace name: `"a.core".split('.')[-1]`. -/
def lastDotSegment (s : String) : String :=
  String.mk (((splitOnChar ('.') s.data).getLast?).getD [])

/-- Characters treated as whitespace by Python's `str.strip` and the `\s`
class used in `schema.py` (ASCII subset; the inputs of interest are ASCII). -/
def isPyWs (c : Char) : Bool :=
  c = ' ' || c = '\t' || c = '\n' || c = '\r' || c = Char.ofNat 11 || c = Char.ofNat 12

/-- Remove trailing whitespace. -/
def dropTrailingWs (s : List Char) : List Char :=
  (s.reverse.dropWhile isPyWs).reverse

/-- Python's `str.strip()` on a character list. -/
def stripChars (s : List Char) : List Char :=
  dropTrailingWs (s.dropWhile isPyWs)

/-! ## Association-list helpers (Python dict model) -/

/-- Python dict assignment `m[k] = v`: overwrite in place if the key exists,
otherwise append at the end (insertion order preserved). -/
def dictInsert {β : Type} (m : List (String × β)) (k : String) (v : β) :
    List (String × β) :=
  if (m.lookup k).isSome then m.map (fun q => if q.1 = k then (q.1, v) else q)
  else m ++ [(k, v)]

/-- Python `dict.setdefault(k, []).append(n)` as used to build components. -/
def compsAdd (m : List (String × List String)) (k : String) (n : String) :
    List (String × List String) :=
  if (m.lookup k).isSome then
    m.map (fun q => if q.1 = k then (q.1, q.2 ++ [n]) else q)
  else m ++ [(k, [n])]

/-! ## Data model (from `knowledge/backends/base.py`) -/

/-- Structural info about a single namespace (`NamespaceInfo`). -/
structure NamespaceInfo where
  path : String
  name : String
  requiresNs : List String
  functions : List String
  layer : Option String
  hasSideEffects : Bool
deriving DecidableEq, Repr

/-- Complete structural extraction result (`StructureResult`).  The
dependency map is a Python dict `str -> list[str]`; it is modelled as a
total function where a missing key yields `[]`, matching every access
`dependency_map.get(name, [])` in the code under verification. -/
structure StructureResult where
  namespaces : List NamespaceInfo
  dependencyMap : String → List String
  totalSourceChars : Nat
  extractionMethod : String

/-- A connected subgraph of namespaces forming a data flow
(`chunking.FlowGroup`). -/
structure FlowGroup where
  name : String
  namespaces : List NamespaceInfo
  entryPoints : List String
  exitPoints : List String
  internalDeps : List (String × List String)
deriving DecidableEq, Repr

/-- Names of a flow group's members. -/
def memberNames (g : FlowGroup) : List String := g.namespaces.map (·.name)

/-! ## Union-find (from `partition_flow_groups`) -/

/-- The compressing `find` of `chunking.py`:

```
def find(x):
    while parent[x] != x:
        parent[x] = parent[parent[x]]
        x = parent[x]
    return x
```

The Python dict `parent` is modelled as a total function (identity outside
its key set).  `fuel` bounds the number of loop iterations; the partitioner
passes the number of namespaces, which the forest invariant shows is enough
for the loop to reach the root. -/
def ufFind (fuel : Nat) (p : String → String) (x : String) :
    (String → String) × String :=
  match fuel with
  | 0 => (p, x)
  | fuel + 1 =>
    if p x = x then (p, x)
    else
      let gp := p (p x)
      ufFind fuel (fun y => if y = x then gp else p y) gp

/-- The `union` of `chunking.py`: find both roots and, when they differ,
make the lexicographically smaller root the parent of the larger. -/
def ufUnion (fuel : Nat) (p : String → String) (a b : String) :
    String → String :=
  let fa := ufFind fuel p a
  let fb := ufFind fuel fa.1 b
  let ra := fa.2
  let rb := fb.2
  if ra = rb then fb.1
  else if strLtB rb ra then fun y => if y = ra then rb else fb.1 y
  else fun y => if y = rb then ra else fb.1 y

/-! ## Graph partitioner (`chunking.partition_flow_groups`) -/

/-- Build the `ns_by_name` dict (`{ns.name: ns for ns in namespaces}`,
last occurrence wins). -/
def nsByName (l : List NamespaceInfo) : List (String × NamespaceInfo) :=
  l.foldl (fun m ns => dictInsert m ns.name ns) []

/-- The union pass: for every name, union it with each of its known
dependencies (edges to unknown names are dropped). -/
def ufAfterUnions (structR : StructureResult) (m : List (String × NamespaceInfo))
    (allNames : List String) (fuel : Nat) : String → String :=
  allNames.foldl
    (fun p n =>
      ((structR.dependencyMap n).filter (fun d => (m.lookup d).isSome)).foldl
        (fun p d => ufUnion fuel p n d) p)
    (fun x => x)

/-- The component-collection pass: `components.setdefault(find(name), []).append(name)`
threaded through the (compressing) parent state. -/
def ufComponents (allNames : List String) (fuel : Nat) (p : String → String) :
    (String → String) × List (String × List String) :=
  allNames.foldl
    (fun st n =>
      let fr := ufFind fuel st.1 n
      (fr.1, compsAdd st.2 fr.2 n))
    (p, [])

/-- Build one `FlowGroup` for a component root, exactly as the loop body of
`partition_flow_groups` does. -/
def mkFlowGroup (structR : StructureResult) (m : List (String × NamespaceInfo))
    (comps : List (String × List String)) (root : String) : FlowGroup :=
  let members := (comps.lookup root).getD []
  let internalDeps := members.filterMap (fun n =>
    let ds := (structR.dependencyMap n).filter (fun d => members.contains d)
    if ds = [] then none else some (n, pySorted ds))
  let requiredBy := internalDeps.foldl (fun acc q => acc ++ q.2) []
  let entryPts := pySorted (members.filter (fun n => (internalDeps.lookup n).isNone))
  let exitPts := pySorted (members.filter (fun n => !(requiredBy.contains n)))
  let groupName :=
    match members with
    | [] => "flow-unknown"
    | n0 :: _ => "flow-" ++ lastDotSegment n0
  { name := groupName
    namespaces := members.filterMap (fun n => m.lookup n)
    entryPoints := entryPts
    exitPoints := exitPts
    internalDeps := internalDeps }

/-- `partition_flow_groups(structure)`. -/
def partitionFlowGroups (structR : StructureResult) : List FlowGroup :=
  if structR.namespaces = [] then []
  else
    let m := nsByName structR.namespaces
    let allNames := pySorted (m.map (·.1))
    let fuel := allNames.length
    let p1 := ufAfterUnions structR m allNames fuel
    let comps := (ufComponents allNames fuel p1).2
    let roots := pySorted (comps.map (·.1))
    roots.map (mkFlowGroup structR m comps)

/-! ## Group splitter (`pipeline._split_oversized_groups`) -/

/-- `_MAX_SOURCE_CHARS_PER_GROUP = 500_000`. -/
def MAX_SOURCE_CHARS_PER_GROUP : Nat := 500000

/-- Exact ceiling division on naturals, modelling `math.ceil(a / b)` for the
non-negative integers that arise here. -/
def ceilDiv (a b : Nat) : Nat := (a + b - 1) / b

/-- Helper for `chunksOf`, structurally recursive on a fuel bounded by the
list length (each step drops at least one element when `k ≥ 1`). -/
def chunksOfAux {α : Type} (k : Nat) : Nat → List α → List (List α)
  | 0, _ => []
  | _, [] => []
  | fuel + 1, x :: xs =>
    if k = 0 then []
    else (x :: xs).take k :: chunksOfAux k fuel ((x :: xs).drop k)

/-- Slices of size `k`: `for i in range(0, len(l), k): l[i : i + k]`.
A zero `k` would loop forever in Python; it never occurs (the splitter's
chunk size is at least 1) and is mapped to `[]`. -/
def chunksOf {α : Type} (k : Nat) (l : List α) : List (List α) :=
  chunksOfAux k l.length l

instance nsLeDecidable : DecidableRel (nsNameLe (NamespaceInfo.name)) :=
  fun a b =>
    (inferInstance : Decidable (charListLe a.name.data b.name.data = true))

/-- Total source size of a group under a source map, as computed by the
splitter (`sum(len(source_by_namespace.get(ns.name, "")) for ns in ...)`).
The Python dict `source_by_namespace` is modelled as a total function with
default `""`. -/
def groupSourceChars (sourceByNamespace : String → String) (g : FlowGroup) : Nat :=
  (g.namespaces.map (fun ns => (sourceByNamespace ns.name).length)).sum

/-- One sub-group of the splitter's inner loop, for the chunk at index
`idx` (so the Python loop variable `i` equals `idx * chunk_size` and the
part number `i // chunk_size + 1` equals `idx + 1`). -/
def mkSubGroup (group : FlowGroup) (idx : Nat) (chunk : List NamespaceInfo) :
    FlowGroup :=
  let chunkNames := chunk.map (·.name)
  let internalDeps := chunk.filterMap (fun ns =>
    let depsInChunk := ((group.internalDeps.lookup ns.name).getD []).filter
      (fun d => chunkNames.contains d)
    if depsInChunk = [] then none else some (ns.name, depsInChunk))
  let requiredBy := internalDeps.foldl (fun acc q => acc ++ q.2) []
  { name := group.name ++ "-part" ++ toString (idx + 1)
    namespaces := chunk
    entryPoints := pySorted (chunkNames.filter (fun n => !(requiredBy.contains n)))
    exitPoints := pySorted (chunkNames.filter (fun n => (internalDeps.lookup n).isNone))
    internalDeps := internalDeps }

/-- `_split_oversized_groups(groups, source_by_namespace)`. -/
def splitOversizedGroups (groups : List FlowGroup)
    (sourceByNamespace : String → String) : List FlowGroup :=
  groups.foldl
    (fun result group =>
      let totalChars := groupSourceChars sourceByNamespace group
      if totalChars ≤ MAX_SOURCE_CHARS_PER_GROUP then result ++ [group]
      else
        let numSplits := ceilDiv totalChars MAX_SOURCE_CHARS_PER_GROUP
        let chunkSize := ceilDiv group.namespaces.length numSplits
        let sortedNs := List.insertionSort (nsNameLe (NamespaceInfo.name)) group.namespaces
        result ++ ((chunksOf chunkSize sortedNs).enum.map
          (fun pr => mkSubGroup group pr.1 pr.2)))
    []

/-- A source text consisting of `n` copies of one character; used to realise
concrete source maps of a prescribed size. -/
def bigSource (n : Nat) : String := String.mk (List.replicate n 'x')

/-! ## Spec-side restatements of the §4.1 entry/exit rule

Modelled from the spec: "entry points are members absent from the
internal-deps key set, i.e., members with no internal dependency of their
own; exit points = members never named as a target of any internal
dependency edge."  These are used to compare the splitter's recomputation
against the partitioner's rule. -/

/-- Entry points of a group according to the §4.1 rule. -/
def spec41EntryPoints (g : FlowGroup) : List String :=
  pySorted ((memberNames g).filter (fun n => (g.internalDeps.lookup n).isNone))

/-- Exit points of a group according to the §4.1 rule. -/
def spec41ExitPoints (g : FlowGroup) : List String :=
  let requiredBy := g.internalDeps.foldl (fun acc q => acc ++ q.2) []
  pySorted ((memberNames g).filter (fun n => !(requiredBy.contains n)))

/-! ## Concrete inputs used by the claim theorems -/

/-- Build a namespace record with the given name and requires list. -/
def mkNs (name : String) (reqs : List String) : NamespaceInfo :=
  { path := "", name := name, requiresNs := reqs, functions := [], layer := none,
    hasSideEffects := false }

/-- A four-namespace chain `a.a1 → a.a2 → b.b1 → b.b2`, each member's source
being 150 000 characters (total 600 000 > 500 000, so the splitter splits it
into two chunks of two members). -/
def structC2 : StructureResult :=
  { namespaces := [mkNs ("a.a1") ["a.a2"], mkNs ("a.a2") ["b.b1"],
                   mkNs ("b.b1") ["b.b2"], mkNs ("b.b2") []]
  , dependencyMap := fun n =>
      if n = "a.a1" then ["a.a2"]
      else if n = "a.a2" then ["b.b1"]
      else if n = "b.b1" then ["b.b2"]
      else []
  , totalSourceChars := 600000, extractionMethod := "static_parse" }

/-- Source map for `structC2`: 150 000 characters per member. -/
def srcC2 : String → String := fun n =>
  if n = "a.a1" then bigSource 150000
  else if n = "a.a2" then bigSource 150000
  else if n = "b.b1" then bigSource 150000
  else if n = "b.b2" then bigSource 150000
  else ""

/-- A four-namespace chain `a.a → a.b → a.c → a.d` whose first two members
have 500 000-character sources and whose last two are empty: no single
member exceeds the budget, but the two big members land in the same
count-based chunk. -/
def structC3 : StructureResult :=
  { namespaces := [mkNs ("a.a") ["a.b"], mkNs ("a.b") ["a.c"],
                   mkNs ("a.c") ["a.d"], mkNs ("a.d") []]
  , dependencyMap := fun n =>
      if n = "a.a" then ["a.b"]
      else if n = "a.b" then ["a.c"]
      else if n = "a.c" then ["a.d"]
      else []
  , totalSourceChars := 1000000, extractionMethod := "static_parse" }

/-- Source map for `structC3`: 500 000 characters for `a.a` and `a.b`,
empty sources for `a.c` and `a.d`. -/
def srcC3 : String → String := fun n =>
  if n = "a.a" then bigSource 500000
  else if n = "a.b" then bigSource 500000
  else ""

/-- Two disconnected namespaces `a.core` and `b.core`: their components are
rooted at different names but both group names collapse to `flow-core`. -/
def structC10 : StructureResult :=
  { namespaces := [mkNs ("a.core") [], mkNs ("b.core") []]
  , dependencyMap := fun _ => []
  , totalSourceChars := 0, extractionMethod := "static_parse" }

/-! ## Cost tracker (`knowledge/engine/cost_tracker.py`)

Decimal money amounts are modelled exactly as integers in units of 10⁻⁸ USD:
a per-million-token price with two decimal places is `price_cents` cents, and
`price_usd * tokens / 1e6 = price_cents * tokens * 1e-8` exactly, so
`record`'s Decimal arithmetic maps to exact integer arithmetic. -/

/-- Guardrail configuration (`GuardrailsConfig`), costs in 10⁻⁸ USD. -/
structure GuardrailsConfig where
  enabled : Bool
  maxCostPerRunE8 : Int
  warnCostThresholdE8 : Int
  maxSubLmCalls : Nat
deriving DecidableEq, Repr

/-- Tri-state guardrail signal (`GuardrailStatus`). -/
inductive GuardrailStatus where
  | ok
  | warning
  | exceeded
deriving DecidableEq, Repr

/-- `MODEL_PRICING` with the `_DEFAULT_PRICING` fallback (most expensive
tier) for unknown model ids.  Prices are (input, output) in cents per
million tokens. -/
def MODEL_PRICING (model : String) : Int × Int :=
  if model = "anthropic/claude-opus-4-6" then (1500, 7500)
  else if model = "anthropic/claude-sonnet-4-6" then (300, 1500)
  else if model = "anthropic/claude-haiku-4-5-20251001" then (100, 500)
  else (1500, 7500)

/-- The mutable state of a `CostTracker`. -/
structure CostTrackerState where
  totalInputTokens : Int
  totalOutputTokens : Int
  totalCostE8 : Int
  callsByModel : List (String × Nat)
  subLmCalls : Nat
deriving DecidableEq, Repr

/-- A freshly constructed tracker. -/
def initCostTracker : CostTrackerState :=
  { totalInputTokens := 0, totalOutputTokens := 0, totalCostE8 := 0,
    callsByModel := [], subLmCalls := 0 }

/-- `CostTracker.record(model, input_tokens, output_tokens)`. -/
def costRecord (s : CostTrackerState) (model : String)
    (inputTokens outputTokens : Int) : CostTrackerState :=
  let pricing := MODEL_PRICING model
  { totalInputTokens := s.totalInputTokens + inputTokens
    totalOutputTokens := s.totalOutputTokens + outputTokens
    totalCostE8 := s.totalCostE8 + pricing.1 * inputTokens + pricing.2 * outputTokens
    callsByModel := dictInsert s.callsByModel model
      (((s.callsByModel.lookup model).getD 0) + 1)
    subLmCalls := s.subLmCalls + 1 }

/-- `CostTracker.check_guardrails()`. -/
def checkGuardrails (cfg : GuardrailsConfig) (s : CostTrackerState) :
    GuardrailStatus :=
  if !cfg.enabled then .ok
  else if s.totalCostE8 ≥ cfg.maxCostPerRunE8 then .exceeded
  else if s.subLmCalls ≥ cfg.maxSubLmCalls then .exceeded
  else if s.totalCostE8 ≥ cfg.warnCostThresholdE8 then .warning
  else .ok

/-- A sequence of further `record` calls: `(model, input_tokens, output_tokens)`. -/
def costRecordAll (s : CostTrackerState) (calls : List (String × Int × Int)) :
    CostTrackerState :=
  calls.foldl (fun s c => costRecord s c.1 c.2.1 c.2.2) s

/-! ## Schema validator (`knowledge/engine/schema.py`)

The JSON extraction models the two regular-expression searches of
`_extract_json` over character lists.  JSON values are modelled by an
inductive with explicit cons cells for arrays and objects (so that equality
is decidable by derivation); an object's member list keeps source order and
duplicates, and lookups take the last binding, matching `json.loads`'s
last-wins dict construction. -/

/-- Leftmost split at a three-backtick fence: returns the text before the
fence and the text after it. -/
def splitAtFence : List Char → Option (List Char × List Char)
  | [] => none
  | c :: rest =>
    if (c :: rest).take 3 = [backtick, backtick, backtick] then
      some ([], (c :: rest).drop 3)
    else (splitAtFence rest).map (fun pr => (c :: pr.1, pr.2))

/-- Index of the last newline in a character list (the position the greedy
`\s*` backtracks to so that the following `\n` can match). -/
def lastNewlineIdx : List Char → Option Nat
  | [] => none
  | c :: cs =>
    match lastNewlineIdx cs with
    | some k => some (k + 1)
    | none => if c = '\n' then some 0 else none

/-- Attempt the tail `\s*\n(.*?)` + closing fence of the first regex of
`_extract_json`, starting right after the opening fence (and optional
`json`). -/
def tryAfterOpen (u : List Char) : Option (List Char) :=
  (lastNewlineIdx (u.takeWhile isPyWs)).bind
    (fun k => (splitAtFence (u.drop (k + 1))).map (fun pr => pr.1))

/-- Attempt a match of `(?:json)?\s*\n(.*?)` between fences at the start of
`t` (the regex engine prefers the `json` alternative, then backtracks). -/
def tryOpenAt (t : List Char) : Option (List Char) :=
  if t.take 3 = [backtick, backtick, backtick] then
    let rest := t.drop 3
    if rest.take 4 = ['j', 's', 'o', 'n'] then
      match tryAfterOpen (rest.drop 4) with
      | some g => some g
      | none => tryAfterOpen rest
    else tryAfterOpen rest
  else none

/-- Leftmost match of the first regex of `_extract_json`
(three backticks, optional `json`, whitespace ending in a newline, a lazy
group, a closing fence); the result is the group's text. -/
def fenceSearch : List Char → Option (List Char)
  | [] => none
  | c :: rest =>
    match tryOpenAt (c :: rest) with
    | some g => some g
    | none => fenceSearch rest

/-- Prefix of `s` up to and including the last right brace. -/
def dropAfterLastRBrace (s : List Char) : List Char :=
  (s.reverse.dropWhile (fun c => c ≠ rbrace)).reverse

/-- Leftmost-greedy match of the second regex of `_extract_json`
(a brace-delimited span, DOTALL): from the first left brace to the last
right brace after it. -/
def braceSpan : List Char → Option (List Char)
  | [] => none
  | c :: rest =>
    if c = lbrace then
      if rest.contains rbrace then some (c :: dropAfterLastRBrace rest)
      else none
    else braceSpan rest

/-- `_extract_json(text)`. -/
def extractJson (s : List Char) : List Char :=
  match fenceSearch s with
  | some g => stripChars g
  | none =>
    match braceSpan s with
    | some b => b
    | none => s

/-- JSON values.  Arrays and objects are explicit cons chains (isomorphic to
lists) so that structural equality is decidable by derivation; object
members keep source order and duplicates. -/
inductive Json where
  | null
  | bool (b : Bool)
  | num (lexeme : List Char)
  | str (chars : List Char)
  | arrNil
  | arrCons (hd tl : Json)
  | objNil
  | objCons (key : List Char) (val : Json) (tl : Json)
deriving DecidableEq, Repr

/-- JSON inter-token whitespace (as accepted by `json.loads`). -/
def isJsonWs (c : Char) : Bool := c = ' ' || c = '\t' || c = '\n' || c = '\r'

/-- Skip inter-token whitespace. -/
def skipJsonWs (s : List Char) : List Char := s.dropWhile isJsonWs

/-- ASCII digit test. -/
def isJsonDigit (c : Char) : Bool := '0' ≤ c && c ≤ '9'

/-- Hexadecimal digit value. -/
def hexVal (c : Char) : Option Nat :=
  let n := c.toNat
  if 48 ≤ n ∧ n ≤ 57 then some (n - 48)
  else if 97 ≤ n ∧ n ≤ 102 then some (n - 87)
  else if 65 ≤ n ∧ n ≤ 70 then some (n - 55)
  else none

/-- Single-character escapes of JSON strings (everything except `\uXXXX`). -/
def escChar (e : Char) : Option Char :=
  if e = '"' then some '"'
  else if e = '\\' then some '\\'
  else if e = '/' then some '/'
  else if e = 'b' then some (Char.ofNat 8)
  else if e = 'f' then some (Char.ofNat 12)
  else if e = 'n' then some '\n'
  else if e = 'r' then some '\r'
  else if e = 't' then some '\t'
  else none

/-- Parse the body of a JSON string after the opening quote; returns the
decoded characters and the rest of the input after the closing quote.
Surrogate-pair composition of `\u` escapes is not modelled (no input of
interest uses it). -/
def parseStringBody : List Char → Option (List Char × List Char)
  | [] => none
  | c :: rest =>
    if c = '"' then some ([], rest)
    else if c = '\\' then
      match rest with
      | [] => none
      | e :: rest2 =>
        if e = 'u' then
          match rest2 with
          | h1 :: h2 :: h3 :: h4 :: rest3 =>
            match hexVal h1, hexVal h2, hexVal h3, hexVal h4 with
            | some a, some b, some c2, some d =>
              (parseStringBody rest3).map
                (fun pr => (Char.ofNat (((a * 16 + b) * 16 + c2) * 16 + d) :: pr.1, pr.2))
            | _, _, _, _ => none
          | _ => none
        else
          match escChar e with
          | some ch => (parseStringBody rest2).map (fun pr => (ch :: pr.1, pr.2))
          | none => none
    else if c.toNat < 32 then none
    else (parseStringBody rest).map (fun pr => (c :: pr.1, pr.2))

/-- Parse a JSON number (strict grammar `-?(0|[1-9]\d*)(\.\d+)?([eE][+-]?\d+)?`),
keeping the lexeme.  Returns the lexeme and the rest of the input. -/
def parseNumber (s : List Char) : Option (List Char × List Char) :=
  let (sign, s1) : List Char × List Char :=
    match s with
    | '-' :: r => (['-'], r)
    | _ => ([], s)
  let intPart : Option (List Char × List Char) :=
    match s1 with
    | '0' :: r => some (['0'], r)
    | c :: r =>
      if isJsonDigit c && c ≠ '0' then
        some (c :: r.takeWhile isJsonDigit, r.dropWhile isJsonDigit)
      else none
    | [] => none
  match intPart with
  | none => none
  | some (ip, s2) =>
    let (fp, s3) : List Char × List Char :=
      match s2 with
      | '.' :: r =>
        if (r.takeWhile isJsonDigit) = [] then ([], s2)
        else ('.' :: r.takeWhile isJsonDigit, r.dropWhile isJsonDigit)
      | _ => ([], s2)
    let (ep, s4) : List Char × List Char :=
      match s3 with
      | e :: r =>
        if e = 'e' || e = 'E' then
          match r with
          | sg :: r2 =>
            if sg = '+' || sg = '-' then
              if (r2.takeWhile isJsonDigit) = [] then ([], s3)
              else (e :: sg :: r2.takeWhile isJsonDigit, r2.dropWhile isJsonDigit)
            else if (r.takeWhile isJsonDigit) = [] then ([], s3)
            else (e :: r.takeWhile isJsonDigit, r.dropWhile isJsonDigit)
          | [] => ([], s3)
        else ([], s3)
      | [] => ([], s3)
    some (sign ++ ip ++ fp ++ ep, s4)

/-- Modes of the recursive-descent JSON parser (a single fueled function
replaces the mutual recursion so that it is structurally recursive). -/
inductive PMode where
  | value
  | arrStart
  | arrElems
  | objStart
  | objElems

/-- Recursive-descent JSON parser, fuel-indexed.  `arrStart`/`objStart`
expect the text just after `[`/the left brace; `arrElems`/`objElems` parse a
non-empty element list. -/
def parseJ : Nat → PMode → List Char → Option (Json × List Char)
  | 0, _, _ => none
  | fuel + 1, .value, s =>
    match skipJsonWs s with
    | [] => none
    | c :: rest =>
      if c = '"' then (parseStringBody rest).map (fun pr => (Json.str pr.1, pr.2))
      else if c = lbrace then parseJ fuel .objStart rest
      else if c = '[' then parseJ fuel .arrStart rest
      else if c = 'n' then
        match rest with
        | 'u' :: 'l' :: 'l' :: r => some (Json.null, r)
        | _ => none
      else if c = 't' then
        match rest with
        | 'r' :: 'u' :: 'e' :: r => some (Json.bool true, r)
        | _ => none
      else if c = 'f' then
        match rest with
        | 'a' :: 'l' :: 's' :: 'e' :: r => some (Json.bool false, r)
        | _ => none
      else (parseNumber (c :: rest)).map (fun pr => (Json.num pr.1, pr.2))
  | fuel + 1, .arrStart, s =>
    match skipJsonWs s with
    | [] => none
    | c :: rest =>
      if c = ']' then some (Json.arrNil, rest)
      else parseJ fuel .arrElems s
  | fuel + 1, .arrElems, s =>
    match parseJ fuel .value s with
    | none => none
    | some (v, rest) =>
      match skipJsonWs rest with
      | [] => none
      | c :: r2 =>
        if c = ',' then
          (parseJ fuel .arrElems r2).map (fun pr => (Json.arrCons v pr.1, pr.2))
        else if c = ']' then some (Json.arrCons v Json.arrNil, r2)
        else none
  | fuel + 1, .objStart, s =>
    match skipJsonWs s with
    | [] => none
    | c :: rest =>
      if c = rbrace then some (Json.objNil, rest)
      else parseJ fuel .objElems s
  | fuel + 1, .objElems, s =>
    match skipJsonWs s with
    | [] => none
    | c :: rest =>
      if c = '"' then
        match parseStringBody rest with
        | none => none
        | some (key, rest1) =>
          match skipJsonWs rest1 with
          | [] => none
          | c2 :: r2 =>
            if c2 = ':' then
              match parseJ fuel .value r2 with
              | none => none
              | some (v, rest2) =>
                match skipJsonWs rest2 with
                | [] => none
                | c3 :: r3 =>
                  if c3 = ',' then
                    (parseJ fuel .objElems r3).map
                      (fun pr => (Json.objCons key v pr.1, pr.2))
                  else if c3 = rbrace then
                    some (Json.objCons key v Json.objNil, r3)
                  else none
            else none
      else none

/-- `json.loads(text)`: parse one value, allow only trailing whitespace.
The fuel `2·|s| + 8` dominates the parser's recursion depth (each unit of
nesting or each element consumes input). -/
def jsonLoads (s : List Char) : Option Json :=
  match parseJ (2 * s.length + 8) .value s with
  | some (j, rest) => if skipJsonWs rest = [] then some j else none
  | none => none

/-- Key membership in an object (`f in data`). -/
def objHasKey : Json → List Char → Bool
  | .objCons k _ t, key => k = key || objHasKey t key
  | _, _ => false

/-- Object lookup (`data.get(key)`); duplicate keys resolve to the last
binding, as in a dict built by `json.loads`. -/
def objGet : Json → List Char → Option Json
  | .objCons k v t, key =>
    (match objGet t key with
     | some r => some r
     | none => if k = key then some v else none)
  | _, _ => none

/-- Test for a JSON object (`isinstance(data, dict)`). -/
def isJsonObj : Json → Bool
  | .objCons _ _ _ => true
  | .objNil => true
  | _ => false

/-- Elements of a JSON array as a Lean list (a non-array yields `[]`,
matching the `data.get(..., [])` defaults at the call sites). -/
def jsonItems : Json → List Json
  | .arrCons h t => h :: jsonItems t
  | _ => []

/-- `FLOW_ANALYSIS_SCHEMA["required"]`. -/
def FLOW_REQUIRED : List (List Char) :=
  ["flow_name".data, "entry_points".data, "exit_points".data, "namespaces".data,
   "data_flow".data, "bottlenecks".data, "security_findings".data,
   "coupling_issues".data]

/-- `FLOW_ANALYSIS_SCHEMA["namespace_required"]`. -/
def NAMESPACE_REQUIRED : List (List Char) :=
  ["name".data, "layer".data, "role".data, "side_effects".data,
   "security_notes".data]

/-- `FLOW_ANALYSIS_SCHEMA["data_flow_required"]`. -/
def DATA_FLOW_REQUIRED : List (List Char) :=
  ["from".data, "to".data, "transforms".data]

/-- Check a list of entries: each entry must be an object carrying every
required sub-field.  (For a non-array value Python's iteration either
yields non-dict elements or raises; both ways the text is rejected, which
the `false` branch models.) -/
def checkItems (reqd : List (List Char)) : Json → Bool
  | .arrNil => true
  | .arrCons hd tl => (isJsonObj hd && reqd.all (objHasKey hd)) && checkItems reqd tl
  | _ => false

/-- Result of `validate_flow_analysis`: the parsed dict, or the
`ValidationError` message.  (Messages are abbreviated; no claim depends on
message text.) -/
inductive VResult where
  | ok (data : Json)
  | err (msg : List Char)
deriving DecidableEq, Repr

/-- `validate_flow_analysis(raw)`. -/
def validateFlowAnalysis (raw : List Char) : VResult :=
  let extracted := extractJson raw
  match jsonLoads extracted with
  | none => .err ("Invalid JSON".data)
  | some d =>
    if !isJsonObj d then .err ("Expected JSON object".data)
    else if FLOW_REQUIRED.any (fun f => !objHasKey d f) then
      .err ("missing required fields".data)
    else if !checkItems NAMESPACE_REQUIRED ((objGet d ("namespaces".data)).getD .arrNil) then
      .err ("namespace entry invalid".data)
    else if !checkItems DATA_FLOW_REQUIRED ((objGet d ("data_flow".data)).getD .arrNil) then
      .err ("data_flow entry invalid".data)
    else .ok d

/-! ## Pipeline runner (`knowledge/engine/pipeline.PipelineRunner.run`)

The external model client is replaced by call oracles: `firstCall g` is the
outcome of the fan-out call for group `g`, `retryCall g` the outcome of its
single retry.  `_call_sub_lm_for_group` records token usage inside the
worker before the future's result is processed, and returns `""` when the
response carries no text block; an outcome `returned text tIn tOut` covers
both.  The non-deterministic completion order of `as_completed` is an
explicit parameter (a permutation of the dispatch groups); in-flight calls
abandoned by the early budget return are treated as cancelled. -/

/-- Outcome of one `_call_sub_lm_for_group` invocation. -/
inductive CallOutcome where
  | returned (text : String) (inputTokens outputTokens : Int)
  | raised (msg : String)
deriving DecidableEq, Repr

/-- `PipelineResult`. -/
structure PipelineResult where
  status : String
  analyses : List Json
  validationErrors : List (String × String)
  costSummary : CostTrackerState
  groupsTotal : Nat
  groupsSucceeded : Nat
deriving DecidableEq, Repr

/-- State accumulated by the fan-out loop. -/
structure FanoutState where
  tracker : CostTrackerState
  resultsByGroup : List (String × String)
  validationErrors : List (String × String)
deriving DecidableEq, Repr

/-- The fan-out loop over completed futures: record the completed call's
usage, check the guardrail (an `EXCEEDED` check cancels the rest and
returns a `budget_exceeded` result with the analyses collected so far,
which at this stage is none), then store the text or record an API error. -/
def runFanout (cfg : GuardrailsConfig) (subModel : String)
    (firstCall : FlowGroup → CallOutcome) (dispatchTotal : Nat) :
    List FlowGroup → FanoutState → FanoutState ⊕ PipelineResult
  | [], st => .inl st
  | g :: rest, st =>
    let stepped :=
      match firstCall g with
      | .returned text tIn tOut =>
        (costRecord st.tracker subModel tIn tOut, Sum.inl text)
      | .raised msg => (st.tracker, Sum.inr msg)
    if checkGuardrails cfg stepped.1 = .exceeded then
      .inr { status := "budget_exceeded"
             analyses := []
             validationErrors := st.validationErrors
             costSummary := stepped.1
             groupsTotal := dispatchTotal
             groupsSucceeded := 0 }
    else
      match stepped.2 with
      | Sum.inl text =>
        runFanout cfg subModel firstCall dispatchTotal rest
          { st with tracker := stepped.1
                    resultsByGroup := dictInsert st.resultsByGroup g.name text }
      | Sum.inr msg =>
        runFanout cfg subModel firstCall dispatchTotal rest
          { st with tracker := stepped.1
                    validationErrors := st.validationErrors ++ [(g.name, "API error: " ++ msg)] }

/-- One step of the validation/retry loop (`for group in dispatch_groups`):
an absent or empty raw response is skipped (`if not raw: continue`); a
validation failure triggers exactly one retry whose failure (validation or
transport) is recorded permanently. -/
def validateGroupStep (subModel : String) (retryCall : FlowGroup → CallOutcome)
    (resultsByGroup : List (String × String))
    (acc : CostTrackerState × List Json × List (String × String)) (g : FlowGroup) :
    CostTrackerState × List Json × List (String × String) :=
  match resultsByGroup.lookup g.name with
  | none => acc
  | some raw =>
    if raw = "" then acc
    else
      match validateFlowAnalysis raw.data with
      | .ok d => (acc.1, acc.2.1 ++ [d], acc.2.2)
      | .err _ =>
        match retryCall g with
        | .raised msg => (acc.1, acc.2.1, acc.2.2 ++ [(g.name, msg)])
        | .returned text tIn tOut =>
          let tracker2 := costRecord acc.1 subModel tIn tOut
          match validateFlowAnalysis text.data with
          | .ok d => (tracker2, acc.2.1 ++ [d], acc.2.2)
          | .err e2 => (tracker2, acc.2.1, acc.2.2 ++ [(g.name, String.mk e2)])

/-- `PipelineRunner.run(groups, source_by_namespace, ...)`, with the two
call oracles and the fan-out completion order made explicit.  Callers
instantiate `completionOrder` with a permutation of the dispatch-level
(post-split) group list. -/
def runPipeline (cfg : GuardrailsConfig) (subModel : String)
    (groups : List FlowGroup) (src : String → String)
    (firstCall retryCall : FlowGroup → CallOutcome)
    (completionOrder : List FlowGroup) : PipelineResult :=
  if groups = [] then
    { status := "completed", analyses := [], validationErrors := [],
      costSummary := initCostTracker, groupsTotal := 0, groupsSucceeded := 0 }
  else
    let dispatch := splitOversizedGroups groups src
    match runFanout cfg subModel firstCall dispatch.length completionOrder
        { tracker := initCostTracker, resultsByGroup := [], validationErrors := [] } with
    | .inr early => early
    | .inl st =>
      let fin := dispatch.foldl
        (validateGroupStep subModel retryCall st.resultsByGroup)
        (st.tracker, ([] : List Json), st.validationErrors)
      { status := if fin.2.2 = [] then "completed" else "completed_with_errors"
        analyses := fin.2.1
        validationErrors := fin.2.2
        costSummary := fin.1
        groupsTotal := dispatch.length
        groupsSucceeded := fin.2.1.length }

/-! ## Bead CLI wrappers (`recipes/codebase_analysis/beads_tools.py`)

A wrapper's value is the list of `bd` argument vectors it runs (an
invalid input raises `ValueError` before any subprocess starts, so an
`invalid` result carries no argument vector at all). -/

/-- Characters of the allow-list class `[a-zA-Z0-9\-_]`. -/
def allowChar (c : Char) : Bool :=
  ('a' ≤ c && c ≤ 'z') || ('A' ≤ c && c ≤ 'Z') || ('0' ≤ c && c ≤ '9') ||
    c = '-' || c = '_'

/-- Python's `re.match(r"^[a-zA-Z0-9\-_]+$", s)` as a boolean.  In Python's
`re`, `$` matches at the end of the string or just before a newline that is
the string's last character, so a single trailing newline is accepted. -/
def pyAllowListMatch (s : String) : Bool :=
  (!s.data.isEmpty && s.data.all allowChar) ||
    (match s.data.getLast? with
     | some c =>
       c = '\n' && !s.data.dropLast.isEmpty && s.data.dropLast.all allowChar
     | none => false)

/-- Modelled from the spec: the allow-list pattern `^[a-zA-Z0-9\-_]+$` read
as the language of the regular expression (a full anchored match). -/
def specAllowListMatch (s : String) : Bool :=
  !s.data.isEmpty && s.data.all allowChar

/-- `_VALID_REL_TYPES`. -/
def VALID_REL_TYPES : List String := ["depends-on", "relates-to", "blocks"]

/-- Result of a `bd` wrapper call: the argument vectors run, or the
validation failure (no subprocess). -/
inductive BdResult where
  | cmds (argvs : List (List String))
  | invalid (msg : String)
deriving DecidableEq, Repr

/-- Interleave `-t` before each tag (`args.extend(["-t", tag])`). -/
def tagArgs (tags : List String) : List String :=
  tags.foldr (fun t acc => "-t" :: t :: acc) []

/-- `create_bead(title, body, tags)`: each tag is validated before the
command runs; the title and body are not validated. -/
def createBead (title body : String) (tags : List String) : BdResult :=
  if tags.all pyAllowListMatch then
    .cmds [("bd" :: "create" :: title :: "-b" :: body :: tagArgs tags)]
  else .invalid ("Invalid tag format")

/-- `link_beads(from_id, to_id, rel_type)`. -/
def linkBeads (fromId toId relType : String) : BdResult :=
  if !pyAllowListMatch fromId then .invalid ("Invalid bead ID format")
  else if !pyAllowListMatch toId then .invalid ("Invalid bead ID format")
  else if !VALID_REL_TYPES.contains relType then .invalid ("Invalid rel_type")
  else .cmds [["bd", "link", fromId, toId, "--type", relType]]

/-- `tag_bead(bead_id, tags)`. -/
def tagBead (beadId : String) (tags : List String) : BdResult :=
  if !pyAllowListMatch beadId then .invalid ("Invalid bead ID format")
  else if !tags.all pyAllowListMatch then .invalid ("Invalid tag format")
  else .cmds [("bd" :: "tag" :: beadId :: tagArgs tags)]

/-- `comment_bead(bead_id, text)`. -/
def commentBead (beadId text : String) : BdResult :=
  if !pyAllowListMatch beadId then .invalid ("Invalid bead ID format")
  else .cmds [["bd", "comment", beadId, text]]

/-- `close_bead(bead_id, summary)`. -/
def closeBead (beadId summary : String) : BdResult :=
  if !pyAllowListMatch beadId then .invalid ("Invalid bead ID format")
  else .cmds [["bd", "close", beadId, "-m", summary]]

/-- Whether a wrapper call passed validation and ran its commands. -/
def BdResult.isCmds : BdResult → Bool
  | .cmds _ => true
  | .invalid _ => false

/-! ## Reducer (`knowledge/recipes/codebase_analysis/beads_tools.reduce_to_beads`)

The `bd create` subprocess is replaced by an oracle from a flow name to the
created bead id (`none` models a `RuntimeError`, which the reducer catches
and skips).  The dependency links the reducer issues are collected as a
trace of `(from_id, to_id, rel_type)` triples. -/

/-- Python truthiness of a JSON value (a number is truthy iff its mantissa
has a nonzero digit). -/
def jsonTruthy : Json → Bool
  | .null => false
  | .bool b => b
  | .str s => !s.isEmpty
  | .num lex => lex.any (fun c => isJsonDigit c && c ≠ '0')
  | .arrNil => false
  | .arrCons _ _ => true
  | .objNil => false
  | .objCons _ _ _ => true

/-- String content of an optional JSON value with default `""`
(`edge.get("to", "")`; non-string values are not exercised by validated
analyses and also map to `""`). -/
def jsonStrOrEmpty : Option Json → String
  | some (.str s) => String.mk s
  | _ => ""

/-- The flow name of an analysis as a string (`analysis["flow_name"]`;
validated analyses always carry the field). -/
def flowNameStr (a : Json) : String :=
  jsonStrOrEmpty (objGet a ("flow_name".data))

/-- The derived tag set of an analysis, sorted (Python builds a `set` and
sorts it; building the list in iteration order, deduplicating and sorting
yields the same list).  Non-string layers and side-effect entries are not
exercised by validated analyses and contribute no tag. -/
def analysisTags (a : Json) : List String :=
  let nsTags := (jsonItems ((objGet a ("namespaces".data)).getD .arrNil)).foldl
    (fun acc ns =>
      let acc :=
        match objGet ns ("layer".data) with
        | some (.str s) =>
          if !s.isEmpty then acc ++ ["diplomat-" ++ String.mk s] else acc
        | _ => acc
      let acc := acc ++ (jsonItems ((objGet ns ("side_effects".data)).getD .arrNil)).filterMap
        (fun e => match e with
          | .str s => some ("has-" ++ String.mk s)
          | _ => none)
      if jsonTruthy ((objGet ns ("security_notes".data)).getD .null) then
        acc ++ ["has-security-notes"]
      else acc)
    ["structure"]
  let t1 :=
    if jsonTruthy ((objGet a ("security_findings".data)).getD .null) then
      nsTags ++ ["has-security-findings"]
    else nsTags
  let t2 :=
    if jsonTruthy ((objGet a ("bottlenecks".data)).getD .null) then
      t1 ++ ["has-bottlenecks"]
    else t1
  pySorted t2.dedup

/-- `_find_flow_for_namespace(ns_name, analyses)`: the first analysis whose
namespace list contains an entry named `ns_name` yields its `flow_name`
value. -/
def findFlowForNamespace (nsName : String) : List Json → Option Json
  | [] => none
  | a :: rest =>
    if (jsonItems ((objGet a ("namespaces".data)).getD .arrNil)).any
        (fun ns => objGet ns ("name".data) = some (Json.str nsName.data)) then
      objGet a ("flow_name".data)
    else findFlowForNamespace nsName rest

/-- Result of `reduce_to_beads`, together with the trace of issued links. -/
structure ReduceOutcome where
  beadsCreated : Nat
  linksCreated : Nat
  tagsApplied : Nat
  beadIds : List (String × String)
  linkCalls : List (String × String × String)
deriving DecidableEq, Repr

/-- One data-flow edge of the second pass: look up the target namespace's
flow; when it is truthy, differs from the current flow and has a truthy
bead id, issue one `depends-on` link. -/
def reduceLinkStep (analyses : List Json) (beadIds : List (String × String))
    (a : Json) (beadId : String)
    (st : Nat × List (String × String × String)) (e : Json) :
    Nat × List (String × String × String) :=
  let target := jsonStrOrEmpty (objGet e ("to".data))
  match findFlowForNamespace target analyses with
  | some (Json.str s) =>
    if (!(List.isEmpty s)) &&
        Json.str s ≠ (objGet a ("flow_name".data)).getD .null then
      match beadIds.lookup (String.mk s) with
      | some targetBead =>
        if targetBead = "" then st
        else (st.1 + 1, st.2 ++ [(beadId, targetBead, "depends-on")])
      | none => st
    else st
  | _ => st

/-- The links the second pass issues for one analysis `a` whose bead id is
`beadId`. -/
def reduceLinksFor (analyses : List Json) (beadIds : List (String × String))
    (a : Json) (beadId : String)
    (st : Nat × List (String × String × String)) :
    Nat × List (String × String × String) :=
  (jsonItems ((objGet a ("data_flow".data)).getD .arrNil)).foldl
    (reduceLinkStep analyses beadIds a beadId) st

/-- The per-edge link decision of the reducer for a two-analysis run in
which both beads were created: an edge whose target namespace belongs to
`A`'s own namespace list yields no link, one whose target belongs to `B`'s
yields one `depends-on` link from `A`'s bead to `B`'s. -/
def edgeLinkFor (A B : Json) (ida idb : String) (e : Json) :
    Option (String × String × String) :=
  let tgt := jsonStrOrEmpty (objGet e ("to".data))
  if (jsonItems ((objGet A ("namespaces".data)).getD .arrNil)).any
      (fun ns => objGet ns ("name".data) = some (Json.str tgt.data)) then none
  else if (jsonItems ((objGet B ("namespaces".data)).getD .arrNil)).any
      (fun ns => objGet ns ("name".data) = some (Json.str tgt.data)) then
    some (ida, idb, "depends-on")
  else none

/-- Accumulate one optional element, counting: the canonical shape of the
reducer's link fold. -/
def pushStep {α β : Type} (f : α → Option β) (st : Nat × List β) (e : α) :
    Nat × List β :=
  match f e with
  | none => st
  | some l => (st.1 + 1, st.2 ++ [l])

/-- `reduce_to_beads(analyses, ...)` against a create oracle. -/
def reduceToBeads (analyses : List Json) (createOracle : String → Option String) :
    ReduceOutcome :=
  let first := analyses.foldl
    (fun (st : Nat × Nat × List (String × String)) a =>
      let flowName := flowNameStr a
      match createOracle flowName with
      | none => st
      | some beadId =>
        let tagList := analysisTags a
        (st.1 + 1, st.2.1 + tagList.length, dictInsert st.2.2 flowName beadId))
    (0, 0, [])
  let beadIds := first.2.2
  let second := analyses.foldl
    (fun (st : Nat × List (String × String × String)) a =>
      match beadIds.lookup (flowNameStr a) with
      | none => st
      | some beadId =>
        if beadId = "" then st
        else reduceLinksFor analyses beadIds a beadId st)
    (0, [])
  { beadsCreated := first.1
    linksCreated := second.1
    tagsApplied := first.2.1
    beadIds := beadIds
    linkCalls := second.2 }

/-! ## Concrete scenario inputs for the pipeline, reducer and naming claims -/

/-- The flow group produced by `partitionFlowGroups structC2`. -/
def gC2 : FlowGroup :=
  { name := "flow-a1"
  , namespaces := [mkNs ("a.a1") ["a.a2"], mkNs ("a.a2") ["b.b1"],
                   mkNs ("b.b1") ["b.b2"], mkNs ("b.b2") []]
  , entryPoints := ["b.b2"], exitPoints := ["a.a1"]
  , internalDeps := [("a.a1", ["a.a2"]), ("a.a2", ["b.b1"]), ("b.b1", ["b.b2"])] }

/-- First chunk the splitter emits for `gC2` under `srcC2`. -/
def p1C2 : FlowGroup :=
  { name := "flow-a1-part1"
  , namespaces := [mkNs ("a.a1") ["a.a2"], mkNs ("a.a2") ["b.b1"]]
  , entryPoints := ["a.a1"], exitPoints := ["a.a2"]
  , internalDeps := [("a.a1", ["a.a2"])] }

/-- Second chunk the splitter emits for `gC2` under `srcC2`. -/
def p2C2 : FlowGroup :=
  { name := "flow-a1-part2"
  , namespaces := [mkNs ("b.b1") ["b.b2"], mkNs ("b.b2") []]
  , entryPoints := ["b.b1"], exitPoints := ["b.b2"]
  , internalDeps := [("b.b1", ["b.b2"])] }

/-- The flow group produced by `partitionFlowGroups structC3`. -/
def gC3 : FlowGroup :=
  { name := "flow-a"
  , namespaces := [mkNs ("a.a") ["a.b"], mkNs ("a.b") ["a.c"],
                   mkNs ("a.c") ["a.d"], mkNs ("a.d") []]
  , entryPoints := ["a.d"], exitPoints := ["a.a"]
  , internalDeps := [("a.a", ["a.b"]), ("a.b", ["a.c"]), ("a.c", ["a.d"])] }

/-- First chunk the splitter emits for `gC3` under `srcC3` (both 500 000-
character members land here). -/
def p1C3 : FlowGroup :=
  { name := "flow-a-part1"
  , namespaces := [mkNs ("a.a") ["a.b"], mkNs ("a.b") ["a.c"]]
  , entryPoints := ["a.a"], exitPoints := ["a.b"]
  , internalDeps := [("a.a", ["a.b"])] }

/-- Second chunk the splitter emits for `gC3` under `srcC3`. -/
def p2C3 : FlowGroup :=
  { name := "flow-a-part2"
  , namespaces := [mkNs ("a.c") ["a.d"], mkNs ("a.d") []]
  , entryPoints := ["a.c"], exitPoints := ["a.d"]
  , internalDeps := [("a.c", ["a.d"])] }

/-- A flow group with no members, as used by the pipeline tests. -/
def mkGroup (name : String) : FlowGroup :=
  { name := name, namespaces := [], entryPoints := [], exitPoints := [],
    internalDeps := [] }

/-- A configuration with guardrails disabled (runs under budget at every
check). -/
def cfgDisabled : GuardrailsConfig :=
  { enabled := false, maxCostPerRunE8 := 5000000000,
    warnCostThresholdE8 := 3000000000, maxSubLmCalls := 500 }

/-- An oracle whose call succeeds but whose response carries no text block
(`_call_sub_lm_for_group` returns `""`). -/
def firstCallC4 : FlowGroup → CallOutcome := fun _ => .returned ("") 10 10

/-- A retry oracle that is never reached. -/
def retryUnused : FlowGroup → CallOutcome := fun _ => .raised ("unused")

/-- A schema-conforming response text. -/
def validTextC5 : String :=
  "\x7b\"flow_name\": \"flow-a\", \"entry_points\": [], \"exit_points\": [], \"namespaces\": [], \"data_flow\": [], \"bottlenecks\": [], \"security_findings\": [], \"coupling_issues\": []\x7d"

/-- Group 1 of the partial-failure scenario. -/
def gA5 : FlowGroup := mkGroup ("flow-a")

/-- Group 2 of the partial-failure scenario. -/
def gB5 : FlowGroup := mkGroup ("flow-b")

/-- Group 3 of the partial-failure scenario. -/
def gC5 : FlowGroup := mkGroup ("flow-c")

/-- First-attempt oracle: group 1 returns a valid document, group 2 invalid
text, group 3 raises. -/
def firstCallC5 : FlowGroup → CallOutcome := fun g =>
  if g.name = "flow-a" then .returned validTextC5 10 10
  else if g.name = "flow-b" then .returned ("not json") 10 10
  else .raised ("boom")

/-- Retry oracle: group 2's retry returns invalid text again. -/
def retryCallC5 : FlowGroup → CallOutcome := fun g =>
  if g.name = "flow-b" then .returned ("still not json") 10 10
  else .raised ("unused")

/-- The partial-failure scenario run, parameterised by fan-out completion
order. -/
def runC5 (order : List FlowGroup) : PipelineResult :=
  runPipeline cfgDisabled ("anthropic/claude-sonnet-4-6") [gA5, gB5, gC5]
    (fun _ => "") firstCallC5 retryCallC5 order

/-- First group of `partitionFlowGroups structC10`. -/
def g1C10 : FlowGroup :=
  { name := "flow-core", namespaces := [mkNs ("a.core") []],
    entryPoints := ["a.core"], exitPoints := ["a.core"], internalDeps := [] }

/-- Second group of `partitionFlowGroups structC10`; same name, different
members. -/
def g2C10 : FlowGroup :=
  { name := "flow-core", namespaces := [mkNs ("b.core") []],
    entryPoints := ["b.core"], exitPoints := ["b.core"], internalDeps := [] }

/-- Oracle distinguishing the two same-named groups by membership. -/
def firstCallC10 : FlowGroup → CallOutcome := fun g =>
  if memberNames g = ["a.core"] then .returned ("raw1") 0 0
  else .returned ("raw2") 0 0

/-- An enabled guardrail configuration: max cost 10 USD, warn at 5 USD, at
most 100 calls. -/
def cfgC6 : GuardrailsConfig :=
  { enabled := true, maxCostPerRunE8 := 1000000000,
    warnCostThresholdE8 := 500000000, maxSubLmCalls := 100 }

/-- Analysis A of the reducer scenario: one namespace `a.x`, one edge to
`b.y` (a member of flow B) and one edge to its own `a.x`. -/
def cAC8 : Json :=
  .objCons ("flow_name".data) (.str ("flow-a".data))
  (.objCons ("namespaces".data)
    (.arrCons (.objCons ("name".data) (.str ("a.x".data)) .objNil) .arrNil)
  (.objCons ("data_flow".data)
    (.arrCons (.objCons ("to".data) (.str ("b.y".data)) .objNil)
    (.arrCons (.objCons ("to".data) (.str ("a.x".data)) .objNil) .arrNil))
  .objNil))

/-- Analysis B of the reducer scenario: one namespace `b.y`, no edges. -/
def cBC8 : Json :=
  .objCons ("flow_name".data) (.str ("flow-b".data))
  (.objCons ("namespaces".data)
    (.arrCons (.objCons ("name".data) (.str ("b.y".data)) .objNil) .arrNil)
  (.objCons ("data_flow".data) .arrNil .objNil))

/-- Create oracle for the reducer scenario. -/
def oracleC8 : String → Option String := fun s =>
  if s = "flow-a" then some ("id-a")
  else if s = "flow-b" then some ("id-b")
  else none


/-- Whether validation succeeded. -/
def VResult.isOk : VResult → Bool
  | .ok _ => true
  | .err _ => false

/-- A schema-conforming JSON object text whose `flow_name` string value
contains a three-backtick fence. -/
def trickyTextC7 : String := "\x7b\"flow_name\": \"x```y\", \"entry_points\": [], \"exit_points\": [], \"namespaces\": [], \"data_flow\": [], \"bottlenecks\": [], \"security_findings\": [], \"coupling_issues\": []\x7d"

/-- A fence-free schema-conforming JSON object text. -/
def jsonTextC7 : String := "\x7b\"flow_name\": \"flow-w\", \"entry_points\": [\"a.in\"], \"exit_points\": [\"a.out\"], \"namespaces\": [], \"data_flow\": [], \"bottlenecks\": [], \"security_findings\": [], \"coupling_issues\": []\x7d"

/-- Wrap a text in a ```json markdown fence. -/
def wrapFence (t : String) : String := "```json\n" ++ t ++ "```"


/-! ## Union-find verification layer (for `partition_flow_groups`) -/

/-- The input namespace-name list of a structure. -/
def inputNames (s : StructureResult) : List String := s.namespaces.map (·.name)

/-- A dependency edge between known namespaces. -/
def depEdge (s : StructureResult) (u v : String) : Prop :=
  u ∈ inputNames s ∧ v ∈ inputNames s ∧ v ∈ s.dependencyMap u

/-- Connectivity by dependency edges traversed in either direction, within
the known namespaces. -/
def depConnected (s : StructureResult) (a b : String) : Prop :=
  Relation.ReflTransGen (fun u v => depEdge s u v ∨ depEdge s v u) a b

/-- `x` reaches `r` by following parent pointers. -/
def Reaches (p : String → String) (x r : String) : Prop := ∃ k, p^[k] x = r

/-- `r` is the root of `x`: reachable and a fixpoint. -/
def ReachesRoot (p : String → String) (x r : String) : Prop :=
  Reaches p x r ∧ p r = r

/-- Well-formedness of a union-find parent map over `names`: closed over
`names`, identity outside, and acyclic (witnessed by a height function). -/
def UFWf (names : List String) (p : String → String) : Prop :=
  (∀ x, x ∈ names → p x ∈ names) ∧
  (∀ x, x ∉ names → p x = x) ∧
  (∃ h : String → Nat, ∀ x, p x ≠ x → h (p x) < h x)

/-- Two elements have a common root. -/
def sameClass (p : String → String) (x y : String) : Prop :=
  ∃ r, ReachesRoot p x r ∧ ReachesRoot p y r

/-- Connectivity via an explicit edge list (either direction). -/
def ConnE (E : List (String × String)) (x y : String) : Prop :=
  Relation.ReflTransGen (fun u v => (u, v) ∈ E ∨ (v, u) ∈ E) x y

/-- The dependency edges actually unioned by `ufAfterUnions`, flattened in
processing order. -/
def ufEdges (structR : StructureResult) (m : List (String × NamespaceInfo))
    (allNames : List String) : List (String × String) :=
  allNames.foldr
    (fun n acc =>
      ((structR.dependencyMap n).filter (fun d => (m.lookup d).isSome)).map
        (fun d => (n, d)) ++ acc)
    []

/-- A three-namespace structure: `svc.logic.pay` depends on `svc.adapter.pay`,
while `svc.other.core` is isolated. -/
def structC1 : StructureResult :=
  { namespaces := [mkNs ("svc.logic.pay") ["svc.adapter.pay"],
                   mkNs ("svc.adapter.pay") [],
                   mkNs ("svc.other.core") []]
  , dependencyMap := fun n =>
      if n = "svc.logic.pay" then ["svc.adapter.pay"] else []
  , totalSourceChars := 0
  , extractionMethod := "static_parse" }

/-! ## Helper lemmas -/

/-- Length of a replicated source text. -/
theorem bigSource_length (n : Nat) : (bigSource n).length = n := by
  simp [bigSource, String.length]

/-- Folding `pushStep` collects exactly the `filterMap` and its length. -/
theorem foldl_pushes {α β : Type} (f : α → Option β) (es : List α)
    (st : Nat × List β) :
    es.foldl (pushStep f) st =
    (st.1 + (es.filterMap f).length, st.2 ++ es.filterMap f) := by
  induction es generalizing st with
  | nil => simp
  | cons e rest ih =>
    cases h : f e with
    | none => simp [List.foldl_cons, pushStep, h, ih, List.filterMap_cons]
    | some l =>
      simp [List.foldl_cons, pushStep, h, ih, List.filterMap_cons]
      omega

/-- The guardrail check reports `exceeded` exactly when guardrails are
enabled and either ceiling is reached. -/
theorem checkGuardrails_exceeded_iff (cfg : GuardrailsConfig) (s : CostTrackerState) :
    checkGuardrails cfg s = .exceeded ↔
      (cfg.enabled = true ∧
        (s.totalCostE8 ≥ cfg.maxCostPerRunE8 ∨ s.subLmCalls ≥ cfg.maxSubLmCalls)) := by
  unfold checkGuardrails
  rcases cfg with ⟨e, mc, wc, ms⟩
  cases e <;> simp <;> split_ifs <;> simp_all <;> omega

/-- Every pricing-table entry is non-negative. -/
theorem pricing_nonneg (model : String) :
    0 ≤ (MODEL_PRICING model).1 ∧ 0 ≤ (MODEL_PRICING model).2 := by
  unfold MODEL_PRICING
  split_ifs <;> norm_num

/-- `record` with non-negative token counts never decreases the accumulated
cost, and always increases the call count. -/
theorem costRecord_mono (s : CostTrackerState) (model : String)
    (tIn tOut : Int) (hIn : 0 ≤ tIn) (hOut : 0 ≤ tOut) :
    s.totalCostE8 ≤ (costRecord s model tIn tOut).totalCostE8 ∧
      s.subLmCalls ≤ (costRecord s model tIn tOut).subLmCalls := by
  unfold costRecord
  constructor
  · have h1 := (pricing_nonneg model).1
    have h2 := (pricing_nonneg model).2
    have := mul_nonneg h1 hIn
    have := mul_nonneg h2 hOut
    simp only
    omega
  · simp

/-- One further `record` call keeps an `exceeded` tracker exceeded. -/
theorem costRecord_keeps_exceeded (cfg : GuardrailsConfig) (s : CostTrackerState)
    (model : String) (tIn tOut : Int) (hIn : 0 ≤ tIn) (hOut : 0 ≤ tOut)
    (h : checkGuardrails cfg s = .exceeded) :
    checkGuardrails cfg (costRecord s model tIn tOut) = .exceeded := by
  rw [checkGuardrails_exceeded_iff] at h ⊢
  obtain ⟨he, h⟩ := h
  refine ⟨he, ?_⟩
  have hm := costRecord_mono s model tIn tOut hIn hOut
  rcases h with h | h
  · exact Or.inl (le_trans h hm.1)
  · exact Or.inr (le_trans h hm.2)

/-! ## Claim theorems -/

/-- C2 (code bug evidence): on the oversized four-member chain `structC2`,
the splitter's first emitted sub-group assigns `entry_points = ["a.a1"]`
and `exit_points = ["a.a2"]`, the exact opposite of the §4.1 rule that the
partitioner implements (`spec41EntryPoints`/`spec41ExitPoints` recomputed
on the same sub-membership give `["a.a2"]`/`["a.a1"]`): the splitter's
entry/exit computations are swapped relative to the partitioner. -/
theorem c2_splitter_entry_exit_swapped :
    partitionFlowGroups structC2 = [gC2] ∧
    (gC2.namespaces.map (fun ns => (srcC2 ns.name).length)) =
      [150000, 150000, 150000, 150000] ∧
    splitOversizedGroups [gC2] srcC2 = [p1C2, p2C2] ∧
    p1C2.entryPoints = ["a.a1"] ∧ p1C2.exitPoints = ["a.a2"] ∧
    spec41EntryPoints p1C2 = ["a.a2"] ∧ spec41ExitPoints p1C2 = ["a.a1"] := by
  have hmap : (gC2.namespaces.map (fun ns => (srcC2 ns.name).length)) =
      [150000, 150000, 150000, 150000] := by
    simp [gC2, srcC2, bigSource_length, mkNs]
  have hchars : groupSourceChars srcC2 gC2 = 600000 := by
    simp [groupSourceChars, hmap]
  have hsplit : splitOversizedGroups [gC2] srcC2 = [p1C2, p2C2] := by
    unfold splitOversizedGroups
    simp only [List.foldl_cons, List.foldl_nil, hchars]
    norm_num [MAX_SOURCE_CHARS_PER_GROUP]
    decide
  exact ⟨by decide, hmap, hsplit, by decide, by decide, by decide, by decide⟩

/-- C3 (code bug evidence): on the oversized chain `structC3` whose four
members have sizes 500 000, 500 000, 0 and 0 — no single member above the
500 000 budget — the count-based splitter puts both large members in the
same chunk, emitting a group of 1 000 000 characters, which exceeds the
budget. -/
theorem c3_split_chunk_exceeds_budget :
    partitionFlowGroups structC3 = [gC3] ∧
    (gC3.namespaces.map (fun ns => (srcC3 ns.name).length)) =
      [500000, 500000, 0, 0] ∧
    splitOversizedGroups [gC3] srcC3 = [p1C3, p2C3] ∧
    groupSourceChars srcC3 p1C3 = 1000000 ∧
    MAX_SOURCE_CHARS_PER_GROUP < 1000000 := by
  have hmap : (gC3.namespaces.map (fun ns => (srcC3 ns.name).length)) =
      [500000, 500000, 0, 0] := by
    simp [gC3, srcC3, bigSource_length, mkNs]
  have hchars : groupSourceChars srcC3 gC3 = 1000000 := by
    simp [groupSourceChars, hmap]
  have hsplit : splitOversizedGroups [gC3] srcC3 = [p1C3, p2C3] := by
    unfold splitOversizedGroups
    simp only [List.foldl_cons, List.foldl_nil, hchars]
    norm_num [MAX_SOURCE_CHARS_PER_GROUP]
    decide
  have hp1 : groupSourceChars srcC3 p1C3 = 1000000 := by
    simp [groupSourceChars, p1C3, srcC3, bigSource_length, mkNs]
  exact ⟨by decide, hmap, hsplit, hp1, by norm_num [MAX_SOURCE_CHARS_PER_GROUP]⟩

/-- C4 (code bug evidence): a run over one group whose external call
succeeds but returns empty text ends `completed` with `groups_total = 1`,
`groups_succeeded = 0` and no validation error — the group is accounted for
neither as an analysis nor as an error, so
`groups_total ≠ groups_succeeded + |validation_errors|`. -/
theorem c4_empty_response_silently_dropped :
    runPipeline cfgDisabled ("anthropic/claude-sonnet-4-6") [mkGroup ("flow-a")]
      (fun _ => "") firstCallC4 retryUnused [mkGroup ("flow-a")] =
    { status := "completed", analyses := [], validationErrors := [],
      costSummary := { totalInputTokens := 10, totalOutputTokens := 10,
                       totalCostE8 := 18000,
                       callsByModel := [("anthropic/claude-sonnet-4-6", 1)],
                       subLmCalls := 1 },
      groupsTotal := 1, groupsSucceeded := 0 } := by
  decide

set_option maxRecDepth 200000 in
/-- C5 (counterexample): in the three-group partial-failure scenario the
code yields `groups_succeeded = 1`, not the 2 the claim states (two of the
three groups fail, so only one analysis is collected). -/
theorem c5_groups_succeeded_counterexample :
    (runC5 [gA5, gB5, gC5]).groupsSucceeded = 1 ∧
    (runC5 [gA5, gB5, gC5]).groupsTotal = 3 ∧ (1 : Nat) ≠ 2 := by
  refine ⟨?_, ?_, by decide⟩ <;> decide

set_option maxRecDepth 1000000 in
/-- C5 (amended): for every fan-out completion order of the three-group
scenario — group 1 valid, group 2 invalid on both attempts, group 3
raising — the run ends `completed_with_errors` (no early abort) with
`groups_total = 3`, `groups_succeeded = 1`, and exactly one recorded
validation error each for group 2 and group 3. -/
theorem c5_partial_failure_scenario (order : List FlowGroup)
    (hperm : order.Perm [gA5, gB5, gC5]) :
    (runC5 order).groupsTotal = 3 ∧
    (runC5 order).groupsSucceeded = 1 ∧
    (runC5 order).validationErrors.length = 2 ∧
    ((runC5 order).validationErrors.countP (fun e => e.1 = "flow-b")) = 1 ∧
    ((runC5 order).validationErrors.countP (fun e => e.1 = "flow-c")) = 1 ∧
    (runC5 order).status = "completed_with_errors" := by
  have hlen : order.length = 3 := hperm.length_eq
  match order, hlen with
  | [x, y, z], _ =>
    have hmem : ∀ w ∈ [x, y, z], w ∈ [gA5, gB5, gC5] := fun w hw => (hperm.mem_iff).mp hw
    have hnd : ([x, y, z] : List FlowGroup).Nodup := hperm.nodup_iff.mpr (by decide)
    have hx := hmem x (by simp)
    have hy := hmem y (by simp)
    have hz := hmem z (by simp)
    simp only [List.mem_cons, List.mem_singleton, List.not_mem_nil, or_false] at hx hy hz
    have hxy : x ≠ y := by
      intro h; rw [h] at hnd; simp at hnd
    have hxz : x ≠ z := by
      intro h; rw [h] at hnd; simp at hnd
    have hyz : y ≠ z := by
      intro h; rw [h] at hnd; simp at hnd
    rcases hx with hx | hx | hx <;> rcases hy with hy | hy | hy <;>
      rcases hz with hz | hz | hz <;> subst hx <;> subst hy <;> subst hz <;>
      first
        | (exact absurd rfl hxy)
        | (exact absurd rfl hxz)
        | (exact absurd rfl hyz)
        | (refine ⟨by decide, by decide, by decide, by decide, by decide, by decide⟩)

set_option maxRecDepth 1000000 in
/-- C5 witness: the amended scenario instantiated at the submission-order
completion order. -/
theorem c5_partial_failure_witness :
    (runC5 [gA5, gB5, gC5]).groupsTotal = 3 ∧
    (runC5 [gA5, gB5, gC5]).groupsSucceeded = 1 ∧
    (runC5 [gA5, gB5, gC5]).validationErrors.length = 2 ∧
    ((runC5 [gA5, gB5, gC5]).validationErrors.countP (fun e => e.1 = "flow-b")) = 1 ∧
    ((runC5 [gA5, gB5, gC5]).validationErrors.countP (fun e => e.1 = "flow-c")) = 1 ∧
    (runC5 [gA5, gB5, gC5]).status = "completed_with_errors" :=
  c5_partial_failure_scenario [gA5, gB5, gC5] (List.Perm.refl _)

/-- C6: with guardrails enabled, once `check_guardrails()` reports
`EXCEEDED`, any further sequence of `record` calls with non-negative token
counts leaves it reporting `EXCEEDED` (cost never decreases and the call
count only grows, and each ceiling test is monotone). -/
theorem c6_guardrail_monotonic (cfg : GuardrailsConfig) (s : CostTrackerState)
    (calls : List (String × Int × Int))
    (henabled : cfg.enabled = true)
    (hexceeded : checkGuardrails cfg s = .exceeded)
    (hnonneg : ∀ c ∈ calls, 0 ≤ c.2.1 ∧ 0 ≤ c.2.2) :
    checkGuardrails cfg (costRecordAll s calls) = .exceeded := by
  clear henabled
  induction calls generalizing s with
  | nil => exact hexceeded
  | cons c rest ih =>
    have hc := hnonneg c (by simp)
    exact ih (costRecord s c.1 c.2.1 c.2.2)
      (costRecord_keeps_exceeded cfg s c.1 c.2.1 c.2.2 hc.1 hc.2 hexceeded)
      (fun d hd => hnonneg d (by simp [hd]))

/-- C6 witness: a tracker pushed past a 10 USD ceiling by one opus-priced
call stays `EXCEEDED` after a further recorded call. -/
theorem c6_guardrail_monotonic_witness :
    cfgC6.enabled = true ∧
    checkGuardrails cfgC6
      (costRecord initCostTracker ("anthropic/claude-opus-4-6") 1000000 0) = .exceeded ∧
    checkGuardrails cfgC6
      (costRecordAll (costRecord initCostTracker ("anthropic/claude-opus-4-6") 1000000 0)
        [("anthropic/claude-haiku-4-5-20251001", 5, 5)]) = .exceeded := by
  refine ⟨rfl, by decide, ?_⟩
  exact c6_guardrail_monotonic cfgC6 _ _ rfl (by decide) (by decide)

/-- C8: for two analyses `A` and `B` with distinct non-empty flow names and
successfully created (non-empty) bead ids, where `B` has no data-flow
edges, the reducer's issued links are exactly one `depends-on` link from
`A`'s bead to `B`'s bead per edge of `A` whose target namespace belongs to
`B`'s namespace list, and no link for an edge whose target belongs to `A`'s
own namespace list (`edgeLinkFor` states that per-edge rule). -/
theorem c8_reducer_linking (A B : Json) (createOracle : String → Option String)
    (fa fb : List Char) (ida idb : String)
    (hA : objGet A ("flow_name".data) = some (Json.str fa))
    (hB : objGet B ("flow_name".data) = some (Json.str fb))
    (hfa : fa ≠ []) (hfb : fb ≠ []) (hne : fa ≠ fb)
    (hca : createOracle (String.mk fa) = some ida)
    (hcb : createOracle (String.mk fb) = some idb)
    (hia : ida ≠ "") (hib : idb ≠ "")
    (hBedges : jsonItems ((objGet B ("data_flow".data)).getD .arrNil) = []) :
    (reduceToBeads [A, B] createOracle).linkCalls =
      (jsonItems ((objGet A ("data_flow".data)).getD .arrNil)).filterMap
        (edgeLinkFor A B ida idb) ∧
    (reduceToBeads [A, B] createOracle).linksCreated =
      ((jsonItems ((objGet A ("data_flow".data)).getD .arrNil)).filterMap
        (edgeLinkFor A B ida idb)).length ∧
    (reduceToBeads [A, B] createOracle).beadsCreated = 2 := by
  have hfaS : flowNameStr A = String.mk fa := by
    simp [flowNameStr, hA, jsonStrOrEmpty]
  have hfbS : flowNameStr B = String.mk fb := by
    simp [flowNameStr, hB, jsonStrOrEmpty]
  have hneS : (String.mk fa) ≠ (String.mk fb) := by
    intro h
    injection h with h2
    exact hne h2
  have hbeqBA : (((String.mk fb) == (String.mk fa)) : Bool) = false := by
    rw [beq_eq_false_iff_ne]
    exact fun h => hneS h.symm
  have hbeqAB : (((String.mk fa) == (String.mk fb)) : Bool) = false := by
    rw [beq_eq_false_iff_ne]
    exact hneS
  have hfind : ∀ tgt : String, findFlowForNamespace tgt [A, B] =
      (if (jsonItems ((objGet A ("namespaces".data)).getD .arrNil)).any
          (fun ns => objGet ns ("name".data) = some (Json.str tgt.data)) then
        some (Json.str fa)
      else if (jsonItems ((objGet B ("namespaces".data)).getD .arrNil)).any
          (fun ns => objGet ns ("name".data) = some (Json.str tgt.data)) then
        some (Json.str fb)
      else none) := by
    intro tgt
    simp only [findFlowForNamespace, hA, hB]
  have hstepA : reduceLinkStep [A, B] [(String.mk fa, ida), (String.mk fb, idb)] A ida =
      pushStep (edgeLinkFor A B ida idb) := by
    funext st e
    simp only [reduceLinkStep, edgeLinkFor, pushStep, hfind]
    cases hAny : (jsonItems ((objGet A ("namespaces".data)).getD .arrNil)).any
        (fun ns => objGet ns ("name".data) =
          some (Json.str (jsonStrOrEmpty (objGet e ("to".data))).data)) with
    | true =>
      simp only [hAny, if_true, hA, Option.getD_some]
      simp
    | false =>
      simp only [hAny, if_false, Bool.false_eq_true]
      cases hBny : (jsonItems ((objGet B ("namespaces".data)).getD .arrNil)).any
          (fun ns => objGet ns ("name".data) =
            some (Json.str (jsonStrOrEmpty (objGet e ("to".data))).data)) with
      | true =>
        have htr : (!(List.isEmpty fb)) = true := by
          cases fb with
          | nil => exact absurd rfl hfb
          | cons c cs => rfl
        have hnefb : (Json.str fb ≠ Json.str fa) := by
          intro h
          injection h with h2
          exact hne h2.symm
        simp only [hBny, if_true, hA, Option.getD_some]
        simp [htr, hnefb, List.lookup, hbeqAB, hbeqBA, hib, String.mk]
      | false =>
        simp [hBny]
  have hlinksA : reduceLinksFor [A, B] [(String.mk fa, ida), (String.mk fb, idb)] A ida (0, []) =
      (((jsonItems ((objGet A ("data_flow".data)).getD .arrNil)).filterMap
          (edgeLinkFor A B ida idb)).length,
       (jsonItems ((objGet A ("data_flow".data)).getD .arrNil)).filterMap
          (edgeLinkFor A B ida idb)) := by
    unfold reduceLinksFor
    rw [hstepA, foldl_pushes]
    simp
  have hlinksB : ∀ st, reduceLinksFor [A, B]
      [(String.mk fa, ida), (String.mk fb, idb)] B idb st = st := by
    intro st
    unfold reduceLinksFor
    rw [hBedges]
    rfl
  unfold reduceToBeads
  simp only [List.foldl_cons, List.foldl_nil, hfaS, hfbS, hca, hcb, dictInsert,
    List.lookup, hbeqBA, hbeqAB, beq_self_eq_true, Option.isSome]
  simp [hia, hib, hlinksA, hlinksB]

/-- C8 witness: the reducer theorem instantiated at concrete analyses; the
cross-flow edge yields exactly one `depends-on` link from `id-a` to `id-b`
and the self-flow edge yields none. -/
theorem c8_reducer_linking_witness :
    (reduceToBeads [cAC8, cBC8] oracleC8).linkCalls = [("id-a", "id-b", "depends-on")] ∧
    (reduceToBeads [cAC8, cBC8] oracleC8).linksCreated = 1 ∧
    (reduceToBeads [cAC8, cBC8] oracleC8).beadsCreated = 2 := by
  have h := c8_reducer_linking cAC8 cBC8 oracleC8 ("flow-a".data) ("flow-b".data)
    ("id-a") ("id-b") (by decide) (by decide) (by decide) (by decide) (by decide)
    (by decide) (by decide) (by decide) (by decide) (by decide)
  exact ⟨h.1.trans (by decide), h.2.1.trans (by decide), h.2.2⟩

/-- C9 (counterexample): the input `"abc\n"` does not match the allow-list
pattern `^[a-zA-Z0-9\-_]+$` read as a full anchored match, yet
`link_beads` accepts it and places it on a `bd` command line, because
Python's `$` also matches just before a single trailing newline. -/
theorem c9_trailing_newline_counterexample :
    specAllowListMatch ("abc\n") = false ∧
    linkBeads ("abc\n") ("abc") ("depends-on") =
      .cmds [["bd", "link", "abc\n", "abc", "--type", "depends-on"]] := by
  refine ⟨by decide, by decide⟩

/-- C9 (amended): every identifier and tag passed to the `bd` wrappers is
validated with Python's `re.match` of the allow-list pattern — which
accepts exactly the strings of allow-list characters plus those same
strings followed by one trailing newline — before any command runs;
`link_beads` additionally rejects relations outside
`{depends-on, relates-to, blocks}`; a failing input yields a `ValueError`
result carrying no argument vector (no subprocess is invoked). -/
theorem c9_validation_boundary :
    (∀ s : String, pyAllowListMatch s =
      (specAllowListMatch s ||
        (s.data.getLast? = some '\n' && specAllowListMatch (String.mk s.data.dropLast)))) ∧
    (∀ title body tags, (createBead title body tags).isCmds = tags.all pyAllowListMatch) ∧
    (∀ f t r, (linkBeads f t r).isCmds =
      (pyAllowListMatch f && pyAllowListMatch t && VALID_REL_TYPES.contains r)) ∧
    (∀ b tags, (tagBead b tags).isCmds = (pyAllowListMatch b && tags.all pyAllowListMatch)) ∧
    (∀ b t, (commentBead b t).isCmds = pyAllowListMatch b) ∧
    (∀ b t, (closeBead b t).isCmds = pyAllowListMatch b) := by
  refine ⟨?_, ?_, ?_, ?_, ?_, ?_⟩
  · intro s
    unfold pyAllowListMatch specAllowListMatch
    cases h : s.data.getLast? <;> simp [h, Bool.and_assoc]
  · intro title body tags
    unfold createBead
    split_ifs with h <;> simp [BdResult.isCmds, h]
  · intro f t r
    unfold linkBeads
    split_ifs with h1 h2 h3 <;> simp_all [BdResult.isCmds]
  · intro b tags
    unfold tagBead
    split_ifs with h1 h2 <;> simp_all [BdResult.isCmds]
  · intro b t
    unfold commentBead
    split_ifs with h <;> simp_all [BdResult.isCmds]
  · intro b t
    unfold closeBead
    split_ifs with h <;> simp_all [BdResult.isCmds]

set_option maxRecDepth 100000 in
/-- C10: partitioning two disconnected namespaces `a.core` and `b.core`
yields two distinct groups both named `flow-core` (the name uses only the
final dotted segment of the first member), and the runner's fan-out stores
results in a map keyed by group name, so the two groups share one slot —
the second store overwrites the first. -/
theorem c10_duplicate_group_names :
    partitionFlowGroups structC10 = [g1C10, g2C10] ∧
    g1C10.name = g2C10.name ∧
    g1C10 ≠ g2C10 ∧
    runFanout cfgDisabled ("m") firstCallC10 2 [g1C10, g2C10]
      { tracker := initCostTracker, resultsByGroup := [], validationErrors := [] } =
      .inl { tracker := { totalInputTokens := 0, totalOutputTokens := 0,
                          totalCostE8 := 0, callsByModel := [("m", 2)],
                          subLmCalls := 2 },
             resultsByGroup := [("flow-core", "raw2")],
             validationErrors := [] } := by
  refine ⟨by decide, by decide, by decide, by decide⟩

/-! ## Validator extraction lemmas and C7 theorems -/




theorem head_dropWhile_not {p : Char → Bool} : ∀ (l : List Char) {c : Char},
    (l.dropWhile p).head? = some c → p c = false := by
  intro l
  induction l with
  | nil => intro c h; simp [List.dropWhile] at h
  | cons a as ih =>
    intro c h
    by_cases hp : p a
    · rw [List.dropWhile_cons_of_pos hp] at h
      exact ih h
    · rw [List.dropWhile_cons_of_neg hp] at h
      simp at h
      rw [← h]
      exact Bool.eq_false_iff.mpr hp

theorem dropWhile_append_of_all {p : Char → Bool} (w s : List Char)
    (hw : ∀ c ∈ w, p c = true) :
    (w ++ s).dropWhile p = s.dropWhile p := by
  induction w with
  | nil => simp
  | cons a as ih =>
    have ha : p a = true := hw a (by simp)
    simp only [List.cons_append, List.dropWhile_cons_of_pos ha]
    exact ih (fun c hc => hw c (by simp [hc]))

theorem takeWhile_append_of_all {p : Char → Bool} (w s : List Char)
    (hw : ∀ c ∈ w, p c = true) :
    (w ++ s).takeWhile p = w ++ s.takeWhile p := by
  induction w with
  | nil => simp
  | cons a as ih =>
    have ha : p a = true := hw a (by simp)
    simp only [List.cons_append, List.takeWhile_cons_of_pos ha]
    rw [ih (fun c hc => hw c (by simp [hc]))]

theorem takeWhile_head_neg {p : Char → Bool} (s : List Char) {c : Char}
    (hc : s.head? = some c) (hp : p c = false) :
    s.takeWhile p = [] := by
  cases s with
  | nil => simp at hc
  | cons a as =>
    simp at hc
    subst hc
    simp [List.takeWhile_cons_of_neg, hp]

theorem stripChars_wsLead (w s : List Char) (hw : ∀ c ∈ w, isPyWs c = true) :
    stripChars (w ++ s) = stripChars s := by
  unfold stripChars
  rw [dropWhile_append_of_all w s hw]

theorem dropTrailingWs_cons_not_ws (c : Char) (s : List Char)
    (hc : isPyWs c = false) :
    dropTrailingWs (c :: s) = c :: dropTrailingWs s := by
  unfold dropTrailingWs
  rw [show (c :: s).reverse = s.reverse ++ [c] from by simp]
  rw [List.dropWhile_append]
  cases h : s.reverse.dropWhile isPyWs with
  | nil => simp [h, List.dropWhile_cons, hc]
  | cons a as => simp [h]

theorem dropTrailingWs_decomp (s : List Char) :
    ∃ w, s = dropTrailingWs s ++ w ∧ ∀ c ∈ w, isPyWs c = true := by
  refine ⟨(s.reverse.takeWhile isPyWs).reverse, ?_, ?_⟩
  · unfold dropTrailingWs
    rw [← List.reverse_append]
    rw [List.takeWhile_append_dropWhile]
    simp
  · intro c hc
    rw [List.mem_reverse] at hc
    exact List.mem_takeWhile_imp hc

theorem dropTrailingWs_prefix_head (s : List Char) {c : Char}
    (h : (dropTrailingWs s).head? = some c) : s.head? = some c := by
  obtain ⟨w, hs, _⟩ := dropTrailingWs_decomp s
  rw [hs]
  cases hd : dropTrailingWs s with
  | nil => rw [hd] at h; simp at h
  | cons a as =>
    rw [hd] at h
    simp at h
    simp [hd, h]



theorem take3_fence_mem {t : List Char}
    (h : t.take 3 = [backtick, backtick, backtick]) : backtick ∈ t := by
  have : backtick ∈ t.take 3 := by rw [h]; simp
  exact List.mem_of_mem_take this

theorem tryOpenAt_none {t : List Char} (h : backtick ∉ t) :
    tryOpenAt t = none := by
  unfold tryOpenAt
  rw [if_neg]
  intro h3
  exact h (take3_fence_mem h3)

theorem fenceSearch_none {t : List Char} (h : backtick ∉ t) :
    fenceSearch t = none := by
  induction t with
  | nil => rfl
  | cons c cs ih =>
    unfold fenceSearch
    rw [tryOpenAt_none h]
    exact ih (fun hc => h (List.mem_cons_of_mem c hc))

theorem splitAtFence_append (x y : List Char) (hx : backtick ∉ x) :
    splitAtFence (x ++ backtick :: backtick :: backtick :: y) = some (x, y) := by
  induction x with
  | nil =>
    unfold splitAtFence
    simp
  | cons c cs ih =>
    have hc : c ≠ backtick := fun h => hx (by simp [h])
    rw [List.cons_append]
    unfold splitAtFence
    rw [if_neg]
    · rw [ih (fun h => hx (List.mem_cons_of_mem c h))]
      rfl
    · intro h3
      have : (c :: (cs ++ backtick :: backtick :: backtick :: y)).take 3 =
          c :: ((cs ++ backtick :: backtick :: backtick :: y).take 2) := by
        simp [List.take_cons]
      rw [this] at h3
      injection h3 with h31 _
      exact hc h31

theorem lastNewlineIdx_lt : ∀ {l : List Char} {k : Nat},
    lastNewlineIdx l = some k → k < l.length := by
  intro l
  induction l with
  | nil => intro k h; simp [lastNewlineIdx] at h
  | cons c cs ih =>
    intro k h
    unfold lastNewlineIdx at h
    cases hr : lastNewlineIdx cs with
    | some m =>
      rw [hr] at h
      simp at h
      have := ih hr
      simp [← h]
      omega
    | none =>
      rw [hr] at h
      by_cases hc : c = '\n'
      · rw [if_pos hc] at h
        simp at h
        simp [← h]
      · rw [if_neg hc] at h
        simp at h

theorem lastNewlineIdx_isSome {l : List Char} (h : '\n' ∈ l) :
    (lastNewlineIdx l).isSome := by
  induction l with
  | nil => simp at h
  | cons c cs ih =>
    unfold lastNewlineIdx
    cases hr : lastNewlineIdx cs with
    | some m => simp
    | none =>
      rcases List.mem_cons.mp h with hc | hc
      · rw [if_pos hc.symm]
        simp
      · have := ih hc
        rw [hr] at this
        simp at this



theorem mem_of_mem_takeWhileL {p : Char → Bool} :
    ∀ {l : List Char} {c : Char}, c ∈ l.takeWhile p → c ∈ l := by
  intro l
  induction l with
  | nil => intro c h; simp [List.takeWhile] at h
  | cons a as ih =>
    intro c h
    by_cases hp : p a
    · rw [List.takeWhile_cons_of_pos hp] at h
      rcases List.mem_cons.mp h with h | h
      · simp [h]
      · exact List.mem_cons_of_mem a (ih h)
    · rw [List.takeWhile_cons_of_neg hp] at h
      simp at h

theorem mem_of_mem_dropWhileL {p : Char → Bool} :
    ∀ {l : List Char} {c : Char}, c ∈ l.dropWhile p → c ∈ l := by
  intro l
  induction l with
  | nil => intro c h; simp [List.dropWhile] at h
  | cons a as ih =>
    intro c h
    by_cases hp : p a
    · rw [List.dropWhile_cons_of_pos hp] at h
      exact List.mem_cons_of_mem a (ih h)
    · rw [List.dropWhile_cons_of_neg hp] at h
      exact h

theorem mem_of_mem_dropL : ∀ {l : List Char} {k : Nat} {c : Char},
    c ∈ l.drop k → c ∈ l := by
  intro l k c h
  exact List.mem_of_mem_drop h

theorem mem_of_getLast?Eq : ∀ {l : List Char} {c : Char},
    l.getLast? = some c → c ∈ l := by
  intro l
  induction l with
  | nil => intro c h; simp at h
  | cons a as ih =>
    intro c h
    cases as with
    | nil => simp at h; simp [h]
    | cons b bs =>
      rw [List.getLast?_cons_cons] at h
      exact List.mem_cons_of_mem a (ih h)

theorem ws_ne_lbrace {c : Char} (h : isPyWs c = true) : c ≠ lbrace := by
  intro he
  subst he
  have : isPyWs lbrace = false := by decide
  rw [this] at h
  exact Bool.false_ne_true h

theorem ws_ne_rbrace {c : Char} (h : isPyWs c = true) : c ≠ rbrace := by
  intro he
  subst he
  have : isPyWs rbrace = false := by decide
  rw [this] at h
  exact Bool.false_ne_true h

theorem dropWhile_idem {p : Char → Bool} (l : List Char) :
    (l.dropWhile p).dropWhile p = l.dropWhile p := by
  cases h : l.dropWhile p with
  | nil => rfl
  | cons a as =>
    have : p a = false := by
      have := head_dropWhile_not l (c := a) (by rw [h]; rfl)
      exact this
    rw [List.dropWhile_cons_of_neg (by simp [this])]

theorem braceSpan_ws_skip (w s : List Char) (hw : ∀ c ∈ w, isPyWs c = true) :
    braceSpan (w ++ s) = braceSpan s := by
  induction w with
  | nil => simp
  | cons a as ih =>
    have ha : a ≠ lbrace := ws_ne_lbrace (hw a (by simp))
    rw [List.cons_append]
    conv_lhs => rw [braceSpan]
    rw [if_neg ha]
    exact ih (fun c hc => hw c (by simp [hc]))

theorem dropAfterLastRBrace_append (x w : List Char)
    (hx : x.getLast? = some rbrace) (hw : ∀ c ∈ w, c ≠ rbrace) :
    dropAfterLastRBrace (x ++ w) = x := by
  unfold dropAfterLastRBrace
  rw [List.reverse_append]
  rw [List.dropWhile_append]
  have hwrev : w.reverse.dropWhile (fun c => c ≠ rbrace) = [] := by
    rw [List.dropWhile_eq_nil_iff]
    intro c hc
    simp
    exact hw c (List.mem_reverse.mp hc)
  rw [hwrev]
  simp only [List.isEmpty_nil, if_true]
  have hxrev : x.reverse.head? = some rbrace := by
    rw [List.head?_reverse]
    exact hx
  cases hr : x.reverse with
  | nil => rw [hr] at hxrev; simp at hxrev
  | cons a as =>
    rw [hr] at hxrev
    simp at hxrev
    subst hxrev
    rw [List.dropWhile_cons_of_neg (by simp)]
    rw [← hr]
    simp



theorem stripChars_dropWhile (t : List Char) :
    stripChars (t.dropWhile isPyWs) = stripChars t := by
  unfold stripChars
  rw [dropWhile_idem]

theorem extractJson_wrapped (t : List Char) (hbt : backtick ∉ t)
    (hne : t.dropWhile isPyWs ≠ []) :
    extractJson (("```json\n").data ++ (t ++ ("```").data)) = stripChars t := by
  have hdata : ("```json\n").data =
      [backtick, backtick, backtick, 'j', 's', 'o', 'n', '\n'] := by decide
  have hdataF : ("```").data = [backtick, backtick, backtick] := by decide
  obtain ⟨c0, tr', htr⟩ : ∃ c0 tr', t.dropWhile isPyWs = c0 :: tr' := by
    cases h : t.dropWhile isPyWs with
    | nil => exact absurd h hne
    | cons a as => exact ⟨a, as, rfl⟩
  have hc0w : isPyWs c0 = false :=
    head_dropWhile_not t (by rw [htr]; rfl)
  have htwws : ∀ c ∈ t.takeWhile isPyWs, isPyWs c = true :=
    fun c hc => List.mem_takeWhile_imp hc
  have ht : t.takeWhile isPyWs ++ t.dropWhile isPyWs = t :=
    List.takeWhile_append_dropWhile isPyWs t
  -- the whitespace run after the opening fence
  have hrun : (('\n' :: (t ++ ("```").data)).takeWhile isPyWs) =
      '\n' :: t.takeWhile isPyWs := by
    rw [List.takeWhile_cons_of_pos (by decide : isPyWs '\n' = true)]
    conv_lhs => rw [← ht]
    rw [List.append_assoc]
    rw [takeWhile_append_of_all _ _ htwws]
    rw [@takeWhile_head_neg isPyWs (t.dropWhile isPyWs ++ ("```").data)
      c0 (by rw [htr]; rfl) hc0w]
    simp
  -- the backtracked newline position
  have hsome : (lastNewlineIdx ('\n' :: t.takeWhile isPyWs)).isSome :=
    lastNewlineIdx_isSome (by simp)
  obtain ⟨k, hk⟩ : ∃ k, lastNewlineIdx ('\n' :: t.takeWhile isPyWs) = some k := by
    cases h : lastNewlineIdx ('\n' :: t.takeWhile isPyWs) with
    | none => rw [h] at hsome; simp at hsome
    | some k => exact ⟨k, rfl⟩
  have hklt : k < (t.takeWhile isPyWs).length + 1 := by
    have := lastNewlineIdx_lt hk
    simpa using this
  have hkle : k ≤ (t.takeWhile isPyWs).length := by omega
  -- the content after the chosen newline
  have hdrop : (('\n' :: (t ++ ("```").data)).drop (k + 1)) =
      (t.takeWhile isPyWs).drop k ++ (t.dropWhile isPyWs ++ ("```").data) := by
    rw [List.drop_succ_cons]
    conv_lhs => rw [← ht]
    rw [List.append_assoc]
    rw [List.drop_append_eq_append_drop]
    rw [show k - (t.takeWhile isPyWs).length = 0 from by omega]
    rw [List.drop_zero]
  -- the lazy group runs to the appended closing fence
  have hnofence : backtick ∉ (t.takeWhile isPyWs).drop k ++ t.dropWhile isPyWs := by
    intro hmem
    rcases List.mem_append.mp hmem with h | h
    · exact hbt (mem_of_mem_takeWhileL (List.mem_of_mem_drop h))
    · exact hbt (mem_of_mem_dropWhileL h)
  have hsplit : splitAtFence ((t.takeWhile isPyWs).drop k ++
      (t.dropWhile isPyWs ++ ("```").data)) =
      some ((t.takeWhile isPyWs).drop k ++ t.dropWhile isPyWs, []) := by
    rw [hdataF]
    rw [show (t.takeWhile isPyWs).drop k ++
        (t.dropWhile isPyWs ++ [backtick, backtick, backtick]) =
        ((t.takeWhile isPyWs).drop k ++ t.dropWhile isPyWs) ++
          backtick :: backtick :: backtick :: [] from by simp]
    exact splitAtFence_append _ [] hnofence
  have hTAO : tryAfterOpen ('\n' :: (t ++ ("```").data)) =
      some ((t.takeWhile isPyWs).drop k ++ t.dropWhile isPyWs) := by
    unfold tryAfterOpen
    rw [hrun, hk, Option.some_bind, hdrop, hsplit, Option.map_some']
  have hTOA : tryOpenAt (backtick :: backtick :: backtick :: 'j' :: 's' :: 'o' :: 'n' ::
      '\n' :: (t ++ ("```").data)) =
      some ((t.takeWhile isPyWs).drop k ++ t.dropWhile isPyWs) := by
    unfold tryOpenAt
    rw [if_pos (by simp [List.take])]
    rw [show (backtick :: backtick :: backtick :: 'j' :: 's' :: 'o' :: 'n' ::
      '\n' :: (t ++ ("```").data)).drop 3 = 'j' :: 's' :: 'o' :: 'n' ::
      '\n' :: (t ++ ("```").data) from rfl]
    rw [if_pos (by simp [List.take])]
    rw [show ('j' :: 's' :: 'o' :: 'n' :: '\n' :: (t ++ ("```").data)).drop 4 =
      '\n' :: (t ++ ("```").data) from rfl]
    rw [hTAO]
  have hFS : fenceSearch (("```json\n").data ++ (t ++ ("```").data)) =
      some ((t.takeWhile isPyWs).drop k ++ t.dropWhile isPyWs) := by
    rw [hdata]
    rw [show ([backtick, backtick, backtick, 'j', 's', 'o', 'n', '\n'] ++
      (t ++ ("```").data)) = backtick :: backtick :: backtick :: 'j' :: 's' :: 'o' ::
      'n' :: '\n' :: (t ++ ("```").data) from rfl]
    conv_lhs => rw [fenceSearch]
    rw [hTOA]
  unfold extractJson
  rw [hFS]
  show stripChars ((t.takeWhile isPyWs).drop k ++ t.dropWhile isPyWs) = stripChars t
  have hws : ∀ c ∈ (t.takeWhile isPyWs).drop k, isPyWs c = true :=
    fun c hc => htwws c (List.mem_of_mem_drop hc)
  rw [stripChars_wsLead _ _ hws]
  exact stripChars_dropWhile t



theorem extractJson_unwrapped (t : List Char) (hbt : backtick ∉ t)
    (hhead : (stripChars t).head? = some lbrace)
    (hlast : (stripChars t).getLast? = some rbrace) :
    extractJson t = stripChars t := by
  have hFS : fenceSearch t = none := fenceSearch_none hbt
  have hstrip : stripChars t = dropTrailingWs (t.dropWhile isPyWs) := rfl
  have htrhead : (t.dropWhile isPyWs).head? = some lbrace :=
    dropTrailingWs_prefix_head _ (by rw [← hstrip]; exact hhead)
  obtain ⟨tr', htr⟩ : ∃ tr', t.dropWhile isPyWs = lbrace :: tr' := by
    cases h : t.dropWhile isPyWs with
    | nil => rw [h] at htrhead; simp at htrhead
    | cons a as =>
      rw [h] at htrhead
      simp at htrhead
      exact ⟨as, by rw [htrhead]⟩
  have hdt : dropTrailingWs (lbrace :: tr') = lbrace :: dropTrailingWs tr' :=
    dropTrailingWs_cons_not_ws lbrace tr' (by decide)
  have hlast2 : (dropTrailingWs tr').getLast? = some rbrace := by
    rw [hstrip, htr, hdt] at hlast
    cases hd : dropTrailingWs tr' with
    | nil =>
      rw [hd] at hlast
      simp at hlast
      exact absurd hlast (by decide)
    | cons d ds =>
      rw [hd] at hlast
      rw [List.getLast?_cons_cons] at hlast
      exact hlast
  obtain ⟨wsfx, htr'eq, hwsfx⟩ := dropTrailingWs_decomp tr'
  have hrmem : rbrace ∈ tr' := by
    rw [htr'eq]
    exact List.mem_append_left _ (mem_of_getLast?Eq hlast2)
  have hcont : tr'.contains rbrace = true := by
    simpa using hrmem
  have hdrb : dropAfterLastRBrace tr' = dropTrailingWs tr' := by
    conv_lhs => rw [htr'eq]
    exact dropAfterLastRBrace_append _ _ hlast2 (fun c hc => ws_ne_rbrace (hwsfx c hc))
  have hBS : braceSpan t = some (lbrace :: dropTrailingWs tr') := by
    conv_lhs => rw [← @List.takeWhile_append_dropWhile _ isPyWs t]
    rw [braceSpan_ws_skip _ _ (fun c hc => List.mem_takeWhile_imp hc)]
    rw [htr]
    conv_lhs => rw [braceSpan]
    rw [if_pos rfl, if_pos hcont, hdrb]
  unfold extractJson
  rw [hFS, hBS]
  show lbrace :: dropTrailingWs tr' = stripChars t
  rw [hstrip, htr, hdt]







set_option maxRecDepth 400000 in
/-- C7 (counterexample): a JSON object text containing every required field
whose `flow_name` string value contains a three-backtick fence validates
successfully unwrapped, but wrapped in ```json fences the lazy group stops
at the fence inside the string value, truncating the JSON, and validation
fails — so the round trip does not hold for every JSON-object text. -/
theorem c7_fence_in_string_counterexample :
    (validateFlowAnalysis trickyTextC7.data).isOk = true ∧
    validateFlowAnalysis ((wrapFence trickyTextC7).data) = .err (("Invalid JSON").data) := by
  refine ⟨by decide, by decide⟩

/-- C7 (amended): for every text containing no backtick whose stripped form
begins with a left brace and ends with a right brace, wrapping it in
```json fences changes nothing: both extraction paths produce the stripped
text, so validation of the wrapped text equals validation of the unwrapped
text field for field (in particular a successful validation round-trips). -/
theorem c7_validator_round_trip (t : List Char)
    (hbt : backtick ∉ t)
    (hhead : (stripChars t).head? = some lbrace)
    (hlast : (stripChars t).getLast? = some rbrace) :
    validateFlowAnalysis (("```json\n").data ++ (t ++ ("```").data)) =
      validateFlowAnalysis t := by
  have hne : t.dropWhile isPyWs ≠ [] := by
    intro h
    have : stripChars t = [] := by
      unfold stripChars dropTrailingWs
      rw [h]
      rfl
    rw [this] at hhead
    simp at hhead
  have h1 := extractJson_wrapped t hbt hne
  have h2 := extractJson_unwrapped t hbt hhead hlast
  unfold validateFlowAnalysis
  rw [h1, h2]

set_option maxRecDepth 400000 in
/-- C7 witness: the round trip instantiated at a concrete fence-free
schema-conforming text, which validates successfully. -/
theorem c7_validator_round_trip_witness :
    backtick ∉ jsonTextC7.data ∧
    validateFlowAnalysis (("```json\n").data ++ (jsonTextC7.data ++ ("```").data)) =
      validateFlowAnalysis jsonTextC7.data ∧
    (validateFlowAnalysis jsonTextC7.data).isOk = true := by
  refine ⟨by decide, c7_validator_round_trip _ (by decide) (by decide) (by decide), by decide⟩



/-! ## Union-find correctness development (claim C1) -/

-- ======== basic Reaches lemmas ========

theorem reaches_refl (p : String → String) (x : String) : Reaches p x x := ⟨0, rfl⟩

theorem reaches_trans {p : String → String} {x y z : String}
    (h1 : Reaches p x y) (h2 : Reaches p y z) : Reaches p x z := by
  obtain ⟨k1, hk1⟩ := h1
  obtain ⟨k2, hk2⟩ := h2
  exact ⟨k2 + k1, by rw [Function.iterate_add_apply, hk1, hk2]⟩

theorem reaches_step {p : String → String} (x : String) : Reaches p x (p x) :=
  ⟨1, rfl⟩

theorem iterate_fix {p : String → String} {r : String} (h : p r = r) :
    ∀ k, p^[k] r = r := by
  intro k
  induction k with
  | zero => rfl
  | succ m ih => rw [Function.iterate_succ_apply', ih, h]

theorem reaches_fix_eq {p : String → String} {r z : String}
    (hfix : p r = r) (h : Reaches p r z) : z = r := by
  obtain ⟨k, hk⟩ := h
  rw [iterate_fix hfix] at hk
  exact hk.symm

theorem reachesRoot_unique {p : String → String} {x r1 r2 : String}
    (h1 : ReachesRoot p x r1) (h2 : ReachesRoot p x r2) : r1 = r2 := by
  obtain ⟨⟨i, hi⟩, hf1⟩ := h1
  obtain ⟨⟨j, hj⟩, hf2⟩ := h2
  rcases le_total i j with h | h
  · have : p^[j] x = p^[j - i] (p^[i] x) := by
      rw [← Function.iterate_add_apply]
      congr 1
      omega
    rw [hi] at this
    rw [iterate_fix hf1] at this
    rw [hj] at this
    exact this.symm
  · have : p^[i] x = p^[i - j] (p^[j] x) := by
      rw [← Function.iterate_add_apply]
      congr 1
      omega
    rw [hj] at this
    rw [iterate_fix hf2] at this
    rw [hi] at this
    exact this

theorem reachesRoot_step {p : String → String} {x r : String}
    (h : ReachesRoot p (p x) r) : ReachesRoot p x r := by
  obtain ⟨⟨k, hk⟩, hf⟩ := h
  exact ⟨⟨k + 1, by rw [Function.iterate_add_apply]; simpa using hk⟩, hf⟩

theorem reachesRoot_unstep {p : String → String} {x r : String}
    (h : ReachesRoot p x r) : ReachesRoot p (p x) r := by
  obtain ⟨⟨k, hk⟩, hf⟩ := h
  cases k with
  | zero =>
    simp at hk
    subst hk
    exact ⟨⟨0, by simp [hf]⟩, hf⟩
  | succ m =>
    rw [Function.iterate_succ_apply] at hk
    exact ⟨⟨m, hk⟩, hf⟩

theorem sameClass_refl {p : String → String} {x r : String}
    (h : ReachesRoot p x r) : sameClass p x x := ⟨r, h, h⟩

theorem sameClass_symm {p : String → String} {x y : String}
    (h : sameClass p x y) : sameClass p y x := by
  obtain ⟨r, h1, h2⟩ := h
  exact ⟨r, h2, h1⟩

theorem sameClass_trans {p : String → String} {x y z : String}
    (h1 : sameClass p x y) (h2 : sameClass p y z) : sameClass p x z := by
  obtain ⟨r, hx, hy⟩ := h1
  obtain ⟨r', hy', hz⟩ := h2
  rw [reachesRoot_unique hy hy'] at hx
  exact ⟨r', hx, hz⟩

theorem sameClass_of_roots {p : String → String} {x y ra : String}
    (hx : ReachesRoot p x ra) (hy : ReachesRoot p y ra) : sameClass p x y :=
  ⟨ra, hx, hy⟩

theorem sameClass_iff_root {p : String → String} {a ra : String}
    (ha : ReachesRoot p a ra) (x : String) :
    sameClass p x a ↔ ReachesRoot p x ra := by
  constructor
  · rintro ⟨r, hx, ha'⟩
    rw [reachesRoot_unique ha' ha] at hx
    exact hx
  · intro hx
    exact ⟨ra, hx, ha⟩


-- ======== acyclicity consequences ========

theorem h_iterate_le {p : String → String} {h : String → Nat}
    (hh : ∀ x, p x ≠ x → h (p x) < h x) (k : Nat) (y : String) :
    h (p^[k] y) ≤ h y := by
  induction k with
  | zero => exact le_refl _
  | succ m ih =>
    rw [Function.iterate_succ_apply']
    by_cases hfix : p (p^[m] y) = p^[m] y
    · rw [hfix]; exact ih
    · exact le_trans (le_of_lt (hh _ hfix)) ih

theorem chain_avoids_above {p : String → String} {h : String → Nat} {x : String}
    (hh : ∀ x, p x ≠ x → h (p x) < h x) (hnf : p x ≠ x) (k : Nat) :
    p^[k] (p x) ≠ x := by
  intro hcontra
  have h1 : h (p^[k] (p x)) ≤ h (p x) := h_iterate_le hh k (p x)
  have h2 : h (p x) < h x := hh x hnf
  rw [hcontra] at h1
  omega

theorem h_iter_strict {p : String → String} {h : String → Nat} {x : String} {m : Nat}
    (hh : ∀ x, p x ≠ x → h (p x) < h x)
    (hnf : ∀ i, i ≤ m → p (p^[i] x) ≠ p^[i] x) :
    ∀ i j, i < j → j ≤ m + 1 → h (p^[j] x) < h (p^[i] x) := by
  intro i j hij hjm
  induction j with
  | zero => omega
  | succ n ih =>
    have hstep : h (p^[n + 1] x) < h (p^[n] x) := by
      rw [Function.iterate_succ_apply']
      exact hh _ (hnf n (by omega))
    rcases Nat.lt_or_ge i n with hin | hin
    · exact lt_trans hstep (ih hin (by omega))
    · have : i = n := by omega
      subst this
      exact hstep

theorem exists_fixpoint {names : List String} {p : String → String} {x : String}
    (hwf : UFWf names p) (hx : x ∈ names) :
    ∃ k, k ≤ names.length ∧ p (p^[k] x) = p^[k] x := by
  by_contra hcon
  push_neg at hcon
  obtain ⟨hmem, _, h, hh⟩ := hwf
  have hnf : ∀ i, i ≤ names.length → p (p^[i] x) ≠ p^[i] x := fun i hi =>
    hcon i hi
  have hinj : ∀ a b, a ≤ names.length → b ≤ names.length →
      p^[a] x = p^[b] x → a = b := by
    intro a b ha hb hab
    by_contra hne
    rcases Nat.lt_or_ge a b with hlt | hge
    · have := h_iter_strict hh hnf a b hlt (by omega)
      rw [hab] at this
      omega
    · have hba : b < a := by omega
      have := h_iter_strict hh hnf b a hba (by omega)
      rw [hab] at this
      omega
  have hmemall : ∀ i : Nat, p^[i] x ∈ names.toFinset := by
    intro i
    rw [List.mem_toFinset]
    induction i with
    | zero => exact hx
    | succ m ih =>
      rw [Function.iterate_succ_apply']
      exact hmem _ ih
  have hcard : (Finset.range (names.length + 1)).card ≤ names.toFinset.card := by
    apply Finset.card_le_card_of_injOn (fun i => p^[i] x)
    · intro i _
      exact hmemall i
    · intro a ha b hb hab
      have ha' : a ≤ names.length := by
        have := Finset.mem_range.mp ha
        omega
      have hb' : b ≤ names.length := by
        have := Finset.mem_range.mp hb
        omega
      exact hinj a b ha' hb' hab
  rw [Finset.card_range] at hcard
  have := names.toFinset_card_le
  omega

theorem exists_root {names : List String} {p : String → String} {x : String}
    (hwf : UFWf names p) (hx : x ∈ names) : ∃ r, ReachesRoot p x r := by
  obtain ⟨k, _, hfix⟩ := exists_fixpoint hwf hx
  exact ⟨p^[k] x, ⟨k, rfl⟩, hfix⟩

theorem iterate_mem {names : List String} {p : String → String} {x : String}
    (hwf : UFWf names p) (hx : x ∈ names) (k : Nat) : p^[k] x ∈ names := by
  induction k with
  | zero => exact hx
  | succ m ih =>
    rw [Function.iterate_succ_apply']
    exact hwf.1 _ ih

theorem root_mem {names : List String} {p : String → String} {x r : String}
    (hwf : UFWf names p) (hx : x ∈ names) (hr : ReachesRoot p x r) : r ∈ names := by
  obtain ⟨⟨k, hk⟩, _⟩ := hr
  rw [← hk]
  exact iterate_mem hwf hx k

-- ======== path-compression update ========

theorem compress_wf {names : List String} {p : String → String} {x : String}
    (hwf : UFWf names p) (hx : x ∈ names) :
    UFWf names (fun y => if y = x then p (p x) else p y) := by
  obtain ⟨hmem, hout, h, hh⟩ := hwf
  refine ⟨?_, ?_, h, ?_⟩
  · intro y hy
    show (if y = x then p (p x) else p y) ∈ names
    by_cases hyx : y = x
    · rw [if_pos hyx]
      exact hmem _ (hmem _ hx)
    · rw [if_neg hyx]
      exact hmem _ hy
  · intro y hy
    have hyx : y ≠ x := fun he => hy (he ▸ hx)
    show (if y = x then p (p x) else p y) = y
    rw [if_neg hyx]
    exact hout _ hy
  · intro y hy
    have hy' : (if y = x then p (p x) else p y) ≠ y := hy
    show h (if y = x then p (p x) else p y) < h y
    by_cases hyx : y = x
    · rw [if_pos hyx] at hy' ⊢
      subst hyx
      have hnf : p y ≠ y := by
        intro he
        rw [he, he] at hy'
        exact hy' rfl
      have h1 : h (p y) < h y := hh _ hnf
      by_cases h2 : p (p y) = p y
      · rw [h2]; exact h1
      · exact lt_trans (hh _ h2) h1
    · rw [if_neg hyx] at hy' ⊢
      exact hh _ hy'

theorem compress_fix_iff {p : String → String} {x : String} {h : String → Nat}
    (hh : ∀ z, p z ≠ z → h (p z) < h z) (hnf : p x ≠ x) (r : String) :
    (fun y => if y = x then p (p x) else p y) r = r ↔ p r = r := by
  show (if r = x then p (p x) else p r) = r ↔ p r = r
  by_cases hrx : r = x
  · subst hrx
    rw [if_pos rfl]
    constructor
    · intro hc
      exact absurd hc (chain_avoids_above hh hnf 1)
    · intro hc
      exact absurd hc hnf
  · rw [if_neg hrx]

theorem compress_reaches_fwd {p : String → String} {x : String}
    (k : Nat) (y : String) :
    ∃ m, p^[m] y = (fun z => if z = x then p (p x) else p z)^[k] y := by
  induction k generalizing y with
  | zero => exact ⟨0, rfl⟩
  | succ n ih =>
    rw [Function.iterate_succ_apply]
    show ∃ m, p^[m] y =
      (fun z => if z = x then p (p x) else p z)^[n] (if y = x then p (p x) else p y)
    by_cases hyx : y = x
    · rw [if_pos hyx]
      subst hyx
      obtain ⟨m, hm⟩ := ih (p (p y))
      refine ⟨m + 2, ?_⟩
      rw [show m + 2 = m + (1 + 1) by omega, Function.iterate_add_apply]
      have : p^[1 + 1] y = p (p y) := rfl
      rw [this]
      exact hm
    · rw [if_neg hyx]
      obtain ⟨m, hm⟩ := ih (p y)
      refine ⟨m + 1, ?_⟩
      rw [Function.iterate_add_apply]
      exact hm

theorem compress_reaches_bwd {p : String → String} {x r : String}
    (hfix : p r = r) :
    ∀ k, ∀ y, p^[k] y = r →
      Reaches (fun z => if z = x then p (p x) else p z) y r := by
  intro k
  induction k using Nat.strong_induction_on with
  | _ k ih =>
    intro y hk
    by_cases hyr : y = r
    · subst hyr; exact reaches_refl _ _
    · cases k with
      | zero => exact absurd hk hyr
      | succ n =>
        by_cases hyx : y = x
        · subst hyx
          cases n with
          | zero =>
            have hk1 : p y = r := hk
            refine ⟨1, ?_⟩
            show (if y = y then p (p y) else p y) = r
            rw [if_pos rfl, hk1, hfix]
          | succ m =>
            have hk2 : p^[m] (p (p y)) = r := by
              have hsp : p^[m + 1 + 1] y = p^[m] (p (p y)) := by
                rw [show m + 1 + 1 = m + (1 + 1) by omega,
                  Function.iterate_add_apply]
                rfl
              rw [← hsp]; exact hk
            obtain ⟨j, hj⟩ := ih m (by omega) (p (p y)) hk2
            refine ⟨j + 1, ?_⟩
            rw [Function.iterate_add_apply]
            have : (fun z => if z = y then p (p y) else p z)^[1] y = p (p y) := by
              show (if y = y then p (p y) else p y) = p (p y)
              rw [if_pos rfl]
            rw [this]
            exact hj
        · have hk2 : p^[n] (p y) = r := by
            rw [← Function.iterate_succ_apply]; exact hk
          obtain ⟨j, hj⟩ := ih n (by omega) (p y) hk2
          refine ⟨j + 1, ?_⟩
          rw [Function.iterate_add_apply]
          have : (fun z => if z = x then p (p x) else p z)^[1] y = p y := by
            show (if y = x then p (p x) else p y) = p y
            rw [if_neg hyx]
          rw [this]
          exact hj

theorem compress_root_iff {p : String → String} {x : String} {h : String → Nat}
    (hh : ∀ z, p z ≠ z → h (p z) < h z) (hnf : p x ≠ x) (y r : String) :
    ReachesRoot (fun z => if z = x then p (p x) else p z) y r ↔
      ReachesRoot p y r := by
  constructor
  · rintro ⟨⟨k, hk⟩, hfix⟩
    have hfix2 : p r = r := (compress_fix_iff hh hnf r).mp hfix
    obtain ⟨m, hm⟩ := @compress_reaches_fwd p x k y
    exact ⟨⟨m, by rw [hm, hk]⟩, hfix2⟩
  · rintro ⟨⟨k, hk⟩, hfix⟩
    exact ⟨compress_reaches_bwd hfix k y hk, (compress_fix_iff hh hnf r).mpr hfix⟩



-- ======== root-linking update (union) ========

theorem reaches_shift {p : String → String} {y t : String} (hne : y ≠ t) :
    Reaches p y t ↔ Reaches p (p y) t := by
  constructor
  · rintro ⟨k, hk⟩
    cases k with
    | zero => exact absurd hk hne
    | succ n => exact ⟨n, by rw [← Function.iterate_succ_apply]; exact hk⟩
  · rintro ⟨k, hk⟩
    exact ⟨k + 1, by rw [Function.iterate_add_apply]; exact hk⟩

theorem link_wf {names : List String} {p : String → String} {r1 r2 : String}
    (hwf : UFWf names p) (hfix1 : p r1 = r1) (hfix2 : p r2 = r2)
    (hne : r1 ≠ r2) (hr1 : r1 ∈ names) (hr2 : r2 ∈ names) :
    UFWf names (fun y => if y = r2 then r1 else p y) := by
  obtain ⟨hmem, hout, h, hh⟩ := hwf
  refine ⟨?_, ?_, ?_⟩
  · intro y hy
    show (if y = r2 then r1 else p y) ∈ names
    by_cases hyr : y = r2
    · rw [if_pos hyr]; exact hr1
    · rw [if_neg hyr]; exact hmem _ hy
  · intro y hy
    have hyr : y ≠ r2 := fun he => hy (he ▸ hr2)
    show (if y = r2 then r1 else p y) = y
    rw [if_neg hyr]
    exact hout _ hy
  · classical
    refine ⟨fun y => if Reaches p y r2 then h y + h r1 + 1 else h y, ?_⟩
    intro y hy
    have hy' : (if y = r2 then r1 else p y) ≠ y := hy
    show (if Reaches p (if y = r2 then r1 else p y) r2 then
        h (if y = r2 then r1 else p y) + h r1 + 1
      else h (if y = r2 then r1 else p y)) <
      (if Reaches p y r2 then h y + h r1 + 1 else h y)
    by_cases hyr : y = r2
    · subst hyr
      rw [if_pos rfl] at hy' ⊢
      have hnr : ¬ Reaches p r1 y := by
        intro hr
        exact hy' (reaches_fix_eq hfix1 hr).symm
      have hyy : Reaches p y y := reaches_refl _ _
      rw [if_neg hnr, if_pos hyy]
      omega
    · rw [if_neg hyr] at hy' ⊢
      have hiff := reaches_shift (p := p) (t := r2) hyr
      by_cases hre : Reaches p y r2
      · rw [if_pos (hiff.mp hre), if_pos hre]
        have := hh _ hy'
        omega
      · rw [if_neg (fun hc => hre (hiff.mpr hc)), if_neg hre]
        exact hh _ hy'

theorem link_fix_iff {p : String → String} {r1 r2 : String}
    (hne : r1 ≠ r2) (s : String) :
    (fun y => if y = r2 then r1 else p y) s = s ↔ (p s = s ∧ s ≠ r2) := by
  show (if s = r2 then r1 else p s) = s ↔ (p s = s ∧ s ≠ r2)
  by_cases hsr : s = r2
  · subst hsr
    rw [if_pos rfl]
    simp [hne]
  · rw [if_neg hsr]
    simp [hsr]

theorem link_chain_fwd {p : String → String} {r1 r2 s : String}
    (hfix1 : p r1 = r1) (hfix2 : p r2 = r2) (hne : r1 ≠ r2)
    (hfs : (fun y => if y = r2 then r1 else p y) s = s) :
    ∀ k y, (fun y => if y = r2 then r1 else p y)^[k] y = s →
      (ReachesRoot p y s ∧ s ≠ r2) ∨ (ReachesRoot p y r2 ∧ s = r1) := by
  have hfs' := (link_fix_iff (p := p) hne s).mp hfs
  intro k
  induction k with
  | zero =>
    intro y hy
    simp only [Function.iterate_zero, id_eq] at hy
    subst hy
    exact Or.inl ⟨⟨reaches_refl _ _, hfs'.1⟩, hfs'.2⟩
  | succ n ih =>
    intro y hy
    rw [Function.iterate_succ_apply] at hy
    by_cases hyr : y = r2
    · subst hyr
      rw [if_pos rfl] at hy
      rcases ih r1 hy with ⟨⟨hre, _⟩, _⟩ | ⟨⟨hre, _⟩, _⟩
      · have hsr1 : s = r1 := reaches_fix_eq hfix1 hre
        exact Or.inr ⟨⟨reaches_refl _ _, hfix2⟩, hsr1⟩
      · exact absurd (reaches_fix_eq hfix1 hre) (Ne.symm hne)
    · rw [if_neg hyr] at hy
      rcases ih (p y) hy with ⟨hrr, hs⟩ | ⟨hrr, hs⟩
      · exact Or.inl ⟨reachesRoot_step hrr, hs⟩
      · exact Or.inr ⟨reachesRoot_step hrr, hs⟩

theorem link_chain_bwd_avoid {p : String → String} {r1 r2 s : String}
    (hfix2 : p r2 = r2) (hfixs : p s = s) (hsne : s ≠ r2) :
    ∀ k y, p^[k] y = s → Reaches (fun z => if z = r2 then r1 else p z) y s := by
  intro k
  induction k with
  | zero =>
    intro y hy
    simp only [Function.iterate_zero, id_eq] at hy
    subst hy
    exact reaches_refl _ _
  | succ n ih =>
    intro y hy
    by_cases hyr : y = r2
    · subst hyr
      rw [iterate_fix hfix2] at hy
      exact absurd hy.symm hsne
    · rw [Function.iterate_succ_apply] at hy
      obtain ⟨j, hj⟩ := ih (p y) hy
      refine ⟨j + 1, ?_⟩
      rw [Function.iterate_add_apply]
      have hstep : (fun z => if z = r2 then r1 else p z)^[1] y = p y := by
        show (if y = r2 then r1 else p y) = p y
        rw [if_neg hyr]
      rw [hstep]
      exact hj

theorem link_chain_bwd_move {p : String → String} {r1 r2 : String} :
    ∀ k y, p^[k] y = r2 → Reaches (fun z => if z = r2 then r1 else p z) y r1 := by
  intro k
  induction k with
  | zero =>
    intro y hy
    simp only [Function.iterate_zero, id_eq] at hy
    subst hy
    refine ⟨1, ?_⟩
    show (if y = y then r1 else p y) = r1
    rw [if_pos rfl]
  | succ n ih =>
    intro y hy
    by_cases hyr : y = r2
    · subst hyr
      refine ⟨1, ?_⟩
      show (if y = y then r1 else p y) = r1
      rw [if_pos rfl]
    · rw [Function.iterate_succ_apply] at hy
      obtain ⟨j, hj⟩ := ih (p y) hy
      refine ⟨j + 1, ?_⟩
      rw [Function.iterate_add_apply]
      have hstep : (fun z => if z = r2 then r1 else p z)^[1] y = p y := by
        show (if y = r2 then r1 else p y) = p y
        rw [if_neg hyr]
      rw [hstep]
      exact hj

theorem link_root_iff {p : String → String} {r1 r2 : String}
    (hfix1 : p r1 = r1) (hfix2 : p r2 = r2) (hne : r1 ≠ r2) (y s : String) :
    ReachesRoot (fun z => if z = r2 then r1 else p z) y s ↔
      ((ReachesRoot p y s ∧ s ≠ r2) ∨ (ReachesRoot p y r2 ∧ s = r1)) := by
  constructor
  · rintro ⟨⟨k, hk⟩, hfs⟩
    exact link_chain_fwd hfix1 hfix2 hne hfs k y hk
  · rintro (⟨⟨⟨k, hk⟩, hfixs⟩, hsne⟩ | ⟨⟨⟨k, hk⟩, _⟩, hs⟩)
    · refine ⟨link_chain_bwd_avoid hfix2 hfixs hsne k y hk, ?_⟩
      exact (link_fix_iff hne s).mpr ⟨hfixs, hsne⟩
    · subst hs
      refine ⟨link_chain_bwd_move k y hk, ?_⟩
      exact (link_fix_iff hne s).mpr ⟨hfix1, hne⟩

theorem link_same_iff {p : String → String} {r1 r2 : String}
    (hfix1 : p r1 = r1) (hfix2 : p r2 = r2) (hne : r1 ≠ r2) (x y : String) :
    sameClass (fun z => if z = r2 then r1 else p z) x y ↔
      (sameClass p x y ∨
        (ReachesRoot p x r1 ∧ ReachesRoot p y r2) ∨
        (ReachesRoot p x r2 ∧ ReachesRoot p y r1)) := by
  constructor
  · rintro ⟨s, hx, hy⟩
    rw [link_root_iff hfix1 hfix2 hne] at hx hy
    rcases hx with ⟨hx, hsne⟩ | ⟨hx, hs⟩
    · rcases hy with ⟨hy, _⟩ | ⟨hy, hs⟩
      · exact Or.inl ⟨s, hx, hy⟩
      · subst hs
        exact Or.inr (Or.inl ⟨hx, hy⟩)
    · subst hs
      rcases hy with ⟨hy, _⟩ | ⟨hy, _⟩
      · exact Or.inr (Or.inr ⟨hx, hy⟩)
      · exact Or.inl ⟨r2, hx, hy⟩
  · rintro (⟨s, hx, hy⟩ | ⟨hx, hy⟩ | ⟨hx, hy⟩)
    · by_cases hsr : s = r2
      · subst hsr
        refine ⟨r1, ?_, ?_⟩
        · rw [link_root_iff hfix1 hfix2 hne]
          exact Or.inr ⟨hx, rfl⟩
        · rw [link_root_iff hfix1 hfix2 hne]
          exact Or.inr ⟨hy, rfl⟩
      · refine ⟨s, ?_, ?_⟩
        · rw [link_root_iff hfix1 hfix2 hne]
          exact Or.inl ⟨hx, hsr⟩
        · rw [link_root_iff hfix1 hfix2 hne]
          exact Or.inl ⟨hy, hsr⟩
    · refine ⟨r1, ?_, ?_⟩
      · rw [link_root_iff hfix1 hfix2 hne]
        exact Or.inl ⟨hx, hne⟩
      · rw [link_root_iff hfix1 hfix2 hne]
        exact Or.inr ⟨hy, rfl⟩
    · refine ⟨r1, ?_, ?_⟩
      · rw [link_root_iff hfix1 hfix2 hne]
        exact Or.inr ⟨hx, rfl⟩
      · rw [link_root_iff hfix1 hfix2 hne]
        exact Or.inl ⟨hy, hne⟩



-- ======== ufFind correctness ========

theorem sameClass_congr {p1 p2 : String → String}
    (hiff : ∀ y r, ReachesRoot p1 y r ↔ ReachesRoot p2 y r) (x y : String) :
    sameClass p1 x y ↔ sameClass p2 x y := by
  constructor
  · rintro ⟨r, hx, hy⟩
    exact ⟨r, (hiff x r).mp hx, (hiff y r).mp hy⟩
  · rintro ⟨r, hx, hy⟩
    exact ⟨r, (hiff x r).mpr hx, (hiff y r).mpr hy⟩

theorem ufFind_correct {names : List String} :
    ∀ (fuel : Nat) (p : String → String) (x : String), UFWf names p → x ∈ names →
    (∃ k, k ≤ fuel ∧ p (p^[k] x) = p^[k] x) →
    UFWf names (ufFind fuel p x).1 ∧
    (∀ y r, ReachesRoot (ufFind fuel p x).1 y r ↔ ReachesRoot p y r) ∧
    ReachesRoot p x (ufFind fuel p x).2 := by
  intro fuel
  induction fuel with
  | zero =>
    intro p x hwf hx hex
    obtain ⟨k, hk, hfix⟩ := hex
    have hk0 : k = 0 := by omega
    subst hk0
    simp only [Function.iterate_zero, id_eq] at hfix
    exact ⟨hwf, fun y r => Iff.rfl, ⟨reaches_refl _ _, hfix⟩⟩
  | succ fuel ih =>
    intro p x hwf hx hex
    by_cases hfx : p x = x
    · have heq : ufFind (fuel + 1) p x = (p, x) := by
        simp only [ufFind, if_pos hfx]
      rw [heq]
      exact ⟨hwf, fun y r => Iff.rfl, ⟨reaches_refl _ _, hfx⟩⟩
    · have heq : ufFind (fuel + 1) p x =
          ufFind fuel (fun y => if y = x then p (p x) else p y) (p (p x)) := by
        simp only [ufFind, if_neg hfx]
      rw [heq]
      obtain ⟨hmem, hout, h, hh⟩ := hwf
      have hwf' : UFWf names (fun y => if y = x then p (p x) else p y) :=
        compress_wf ⟨hmem, hout, h, hh⟩ hx
      have hgp : p (p x) ∈ names := hmem _ (hmem _ hx)
      have hchain : ∀ i,
          (fun y => if y = x then p (p x) else p y)^[i] (p (p x)) =
            p^[i] (p (p x)) := by
        intro i
        induction i with
        | zero => rfl
        | succ j ihc =>
          rw [Function.iterate_succ_apply', ihc, Function.iterate_succ_apply']
          have havoid : p^[j] (p (p x)) ≠ x := by
            have : p^[j] (p (p x)) = p^[j + 1] (p x) := by
              rw [Function.iterate_add_apply]
              rfl
            rw [this]
            exact chain_avoids_above hh hfx (j + 1)
          show (if p^[j] (p (p x)) = x then p (p x) else p (p^[j] (p (p x)))) =
            p (p^[j] (p (p x)))
          rw [if_neg havoid]
      have hex' : ∃ k, k ≤ fuel ∧
          (fun y => if y = x then p (p x) else p y)
            ((fun y => if y = x then p (p x) else p y)^[k] (p (p x))) =
          (fun y => if y = x then p (p x) else p y)^[k] (p (p x)) := by
        obtain ⟨k, hk, hfix⟩ := hex
        cases k with
        | zero =>
          simp only [Function.iterate_zero, id_eq] at hfix
          exact absurd hfix hfx
        | succ j =>
          cases j with
          | zero =>
            refine ⟨0, by omega, ?_⟩
            have hgpfix : p (p x) = p x := hfix
            rw [Function.iterate_zero, id_eq]
            rw [(compress_fix_iff hh hfx (p (p x)) :)]
            rw [hgpfix]
            exact hfix
          | succ i =>
            refine ⟨i, by omega, ?_⟩
            rw [(compress_fix_iff hh hfx _ :), hchain i]
            have : p^[i] (p (p x)) = p^[i + 1 + 1] x := by
              rw [show i + 1 + 1 = i + (1 + 1) by omega,
                Function.iterate_add_apply]
              rfl
            rw [this]
            exact hfix
      obtain ⟨hwfR, hiffR, hrootR⟩ := ih _ _ hwf' hgp hex'
      refine ⟨hwfR, ?_, ?_⟩
      · intro y r
        exact (hiffR y r).trans (compress_root_iff hh hfx y r)
      · have hrootP := (compress_root_iff hh hfx _ _).mp hrootR
        exact reachesRoot_step (reachesRoot_step hrootP)

theorem ufFind_spec {names : List String} {fuel : Nat} {p : String → String}
    {x : String} (hwf : UFWf names p) (hx : x ∈ names)
    (hfuel : names.length ≤ fuel) :
    UFWf names (ufFind fuel p x).1 ∧
    (∀ y r, ReachesRoot (ufFind fuel p x).1 y r ↔ ReachesRoot p y r) ∧
    ReachesRoot p x (ufFind fuel p x).2 := by
  obtain ⟨k, hk, hfix⟩ := exists_fixpoint hwf hx
  exact ufFind_correct fuel p x hwf hx ⟨k, by omega, hfix⟩



-- ======== ufUnion semantics ========

theorem ufUnion_spec {names : List String} {fuel : Nat} {p : String → String}
    {a b : String} (hwf : UFWf names p) (ha : a ∈ names) (hb : b ∈ names)
    (hfuel : names.length ≤ fuel) :
    UFWf names (ufUnion fuel p a b) ∧
    (∀ x y, sameClass (ufUnion fuel p a b) x y ↔
      (sameClass p x y ∨
        (sameClass p x a ∧ sameClass p y b) ∨
        (sameClass p x b ∧ sameClass p y a))) := by
  obtain ⟨hwfa, hiffa, hroota⟩ := ufFind_spec hwf ha hfuel
  obtain ⟨hwfb, hiffb, hrootb⟩ := ufFind_spec hwfa hb hfuel
  set fa := ufFind fuel p a with hfa
  set fb := ufFind fuel fa.1 b with hfb
  have hrootbP : ReachesRoot p b fb.2 := (hiffa b fb.2).mp hrootb
  have hiffC : ∀ y r, ReachesRoot fb.1 y r ↔ ReachesRoot p y r :=
    fun y r => (hiffb y r).trans (hiffa y r)
  have hfixa : p fa.2 = fa.2 := hroota.2
  have hfixb : p fb.2 = fb.2 := hrootbP.2
  have hfixa2 : fb.1 fa.2 = fa.2 :=
    ((hiffC fa.2 fa.2).mpr ⟨reaches_refl _ _, hfixa⟩).2
  have hfixb2 : fb.1 fb.2 = fb.2 :=
    ((hiffC fb.2 fb.2).mpr ⟨reaches_refl _ _, hfixb⟩).2
  have hraN : fa.2 ∈ names := root_mem hwf ha hroota
  have hrbN : fb.2 ∈ names := root_mem hwf hb hrootbP
  have hexa : ∀ x, sameClass p x a ↔ ReachesRoot p x fa.2 :=
    fun x => sameClass_iff_root hroota x
  have hexb : ∀ x, sameClass p x b ↔ ReachesRoot p x fb.2 :=
    fun x => sameClass_iff_root hrootbP x
  by_cases hrr : fa.2 = fb.2
  · have hu : ufUnion fuel p a b = fb.1 := by
      rw [ufUnion]
      simp only [← hfa, ← hfb, if_pos hrr]
    rw [hu]
    refine ⟨hwfb, ?_⟩
    intro x y
    rw [sameClass_congr hiffC x y]
    constructor
    · exact Or.inl
    · rintro (hs | ⟨hx, hy⟩ | ⟨hx, hy⟩)
      · exact hs
      · rw [hexa] at hx
        rw [hexb] at hy
        rw [hrr] at hx
        exact ⟨fb.2, hx, hy⟩
      · rw [hexb] at hx
        rw [hexa] at hy
        rw [hrr] at hy
        exact ⟨fb.2, hx, hy⟩
  · by_cases hlt : strLtB fb.2 fa.2 = true
    · have hu : ufUnion fuel p a b =
          (fun y => if y = fa.2 then fb.2 else fb.1 y) := by
        rw [ufUnion]
        simp only [← hfa, ← hfb, if_neg hrr, if_pos hlt]
      rw [hu]
      have hneq : fb.2 ≠ fa.2 := fun he => hrr he.symm
      refine ⟨link_wf hwfb hfixb2 hfixa2 hneq hrbN hraN, ?_⟩
      intro x y
      rw [link_same_iff hfixb2 hfixa2 hneq x y]
      rw [sameClass_congr hiffC x y]
      rw [hiffC x fb.2, hiffC y fa.2, hiffC x fa.2, hiffC y fb.2]
      rw [show (sameClass p x a ∧ sameClass p y b) ↔
          (ReachesRoot p x fa.2 ∧ ReachesRoot p y fb.2) by
        rw [hexa x, hexb y]]
      rw [show (sameClass p x b ∧ sameClass p y a) ↔
          (ReachesRoot p x fb.2 ∧ ReachesRoot p y fa.2) by
        rw [hexb x, hexa y]]
      tauto
    · have hu : ufUnion fuel p a b =
          (fun y => if y = fb.2 then fa.2 else fb.1 y) := by
        rw [ufUnion]
        simp only [← hfa, ← hfb, if_neg hrr, if_neg hlt]
      rw [hu]
      refine ⟨link_wf hwfb hfixa2 hfixb2 hrr hraN hrbN, ?_⟩
      intro x y
      rw [link_same_iff hfixa2 hfixb2 hrr x y]
      rw [sameClass_congr hiffC x y]
      rw [hiffC x fb.2, hiffC y fa.2, hiffC x fa.2, hiffC y fb.2]
      rw [show (sameClass p x a ∧ sameClass p y b) ↔
          (ReachesRoot p x fa.2 ∧ ReachesRoot p y fb.2) by
        rw [hexa x, hexb y]]
      rw [show (sameClass p x b ∧ sameClass p y a) ↔
          (ReachesRoot p x fb.2 ∧ ReachesRoot p y fa.2) by
        rw [hexb x, hexa y]]



-- ======== edge-list connectivity ========

theorem connE_symm {E : List (String × String)} {x y : String}
    (h : ConnE E x y) : ConnE E y x := by
  have hsymm : Symmetric (fun u v => (u, v) ∈ E ∨ (v, u) ∈ E) := by
    intro u v hu
    exact hu.symm
  exact (Relation.ReflTransGen.symmetric hsymm) h

theorem connE_nil {x y : String} : ConnE [] x y ↔ x = y := by
  constructor
  · intro h
    induction h with
    | refl => rfl
    | tail _ hstep ih =>
      rcases hstep with h | h <;> simp at h
  · intro h
    subst h
    exact Relation.ReflTransGen.refl

theorem connE_mono {E E2 : List (String × String)} {x y : String}
    (hsub : ∀ e, e ∈ E → e ∈ E2) (h : ConnE E x y) : ConnE E2 x y := by
  refine Relation.ReflTransGen.mono ?_ h
  intro u v huv
  rcases huv with h1 | h1
  · exact Or.inl (hsub _ h1)
  · exact Or.inr (hsub _ h1)

theorem connE_snoc {E : List (String × String)} {a b x y : String} :
    ConnE (E ++ [(a, b)]) x y ↔
      (ConnE E x y ∨
        (ConnE E x a ∧ ConnE E b y) ∨
        (ConnE E x b ∧ ConnE E a y)) := by
  constructor
  · intro h
    induction h with
    | refl => exact Or.inl Relation.ReflTransGen.refl
    | tail _ hstep ih =>
      rename_i c d hxc
      have hmem : (c, d) ∈ E ∨ (d, c) ∈ E ∨ (c = a ∧ d = b) ∨
          (d = a ∧ c = b) := by
        rcases hstep with h1 | h1
        · rw [List.mem_append] at h1
          rcases h1 with h1 | h1
          · exact Or.inl h1
          · simp only [List.mem_singleton, Prod.mk.injEq] at h1
            exact Or.inr (Or.inr (Or.inl h1))
        · rw [List.mem_append] at h1
          rcases h1 with h1 | h1
          · exact Or.inr (Or.inl h1)
          · simp only [List.mem_singleton, Prod.mk.injEq] at h1
            exact Or.inr (Or.inr (Or.inr ⟨h1.1, h1.2⟩))
      rcases hmem with hE | hE | ⟨hca, hdb⟩ | ⟨hda, hcb⟩
      · rcases ih with h1 | ⟨h1, h2⟩ | ⟨h1, h2⟩
        · exact Or.inl (h1.tail (Or.inl hE))
        · exact Or.inr (Or.inl ⟨h1, h2.tail (Or.inl hE)⟩)
        · exact Or.inr (Or.inr ⟨h1, h2.tail (Or.inl hE)⟩)
      · rcases ih with h1 | ⟨h1, h2⟩ | ⟨h1, h2⟩
        · exact Or.inl (h1.tail (Or.inr hE))
        · exact Or.inr (Or.inl ⟨h1, h2.tail (Or.inr hE)⟩)
        · exact Or.inr (Or.inr ⟨h1, h2.tail (Or.inr hE)⟩)
      · subst hca
        subst hdb
        rcases ih with h1 | ⟨h1, h2⟩ | ⟨h1, h2⟩
        · exact Or.inr (Or.inl ⟨h1, Relation.ReflTransGen.refl⟩)
        · exact Or.inr (Or.inl ⟨h1, Relation.ReflTransGen.refl⟩)
        · exact Or.inl h1
      · subst hda
        subst hcb
        rcases ih with h1 | ⟨h1, h2⟩ | ⟨h1, h2⟩
        · exact Or.inr (Or.inr ⟨h1, Relation.ReflTransGen.refl⟩)
        · exact Or.inl h1
        · exact Or.inr (Or.inr ⟨h1, Relation.ReflTransGen.refl⟩)
  · intro h
    have hsub : ∀ e, e ∈ E → e ∈ E ++ [(a, b)] := by
      intro e he
      exact List.mem_append.mpr (Or.inl he)
    have hab : ConnE (E ++ [(a, b)]) a b :=
      Relation.ReflTransGen.single
        (Or.inl (List.mem_append.mpr (Or.inr (List.mem_singleton.mpr rfl))))
    rcases h with h1 | ⟨h1, h2⟩ | ⟨h1, h2⟩
    · exact connE_mono hsub h1
    · exact ((connE_mono hsub h1).trans hab).trans (connE_mono hsub h2)
    · exact ((connE_mono hsub h1).trans (connE_symm hab)).trans
        (connE_mono hsub h2)



-- ======== the union pass builds dependency connectivity ========

theorem ufwf_id (names : List String) : UFWf names (fun x => x) :=
  ⟨fun x hx => hx, fun _ _ => rfl, ⟨fun _ => 0, fun x hx => absurd rfl hx⟩⟩

theorem iterate_id_apply : ∀ (k : Nat) (z : String), (fun x : String => x)^[k] z = z := by
  intro k
  induction k with
  | zero => intro z; rfl
  | succ n ih =>
    intro z
    rw [Function.iterate_succ_apply]
    exact ih z

theorem sameClass_id (x y : String) : sameClass (fun x : String => x) x y ↔ x = y := by
  constructor
  · rintro ⟨r, ⟨⟨k, hk⟩, _⟩, ⟨⟨j, hj⟩, _⟩⟩
    rw [iterate_id_apply] at hk hj
    rw [hk, hj]
  · intro h
    subst h
    exact ⟨x, ⟨⟨0, rfl⟩, rfl⟩, ⟨⟨0, rfl⟩, rfl⟩⟩

theorem uf_fold_edges {names : List String} {fuel : Nat}
    (hfuel : names.length ≤ fuel) :
    ∀ (E2 : List (String × String)) (p : String → String)
      (E1 : List (String × String)),
      UFWf names p →
      (∀ x y, x ∈ names → y ∈ names → (sameClass p x y ↔ ConnE E1 x y)) →
      (∀ e, e ∈ E2 → e.1 ∈ names ∧ e.2 ∈ names) →
      UFWf names (E2.foldl (fun q e => ufUnion fuel q e.1 e.2) p) ∧
      (∀ x y, x ∈ names → y ∈ names →
        (sameClass (E2.foldl (fun q e => ufUnion fuel q e.1 e.2) p) x y ↔
          ConnE (E1 ++ E2) x y)) := by
  intro E2
  induction E2 with
  | nil =>
    intro p E1 hwf hinv hends
    refine ⟨hwf, ?_⟩
    intro x y hx hy
    rw [List.append_nil]
    exact hinv x y hx hy
  | cons e E2 ih =>
    intro p E1 hwf hinv hends
    rcases e with ⟨a, b⟩
    have hab := hends (a, b) (List.mem_cons_self _ _)
    obtain ⟨hwfU, hsameU⟩ := ufUnion_spec hwf hab.1 hab.2 hfuel
    have hinv' : ∀ x y, x ∈ names → y ∈ names →
        (sameClass (ufUnion fuel p a b) x y ↔ ConnE (E1 ++ [(a, b)]) x y) := by
      intro x y hx hy
      rw [hsameU x y, connE_snoc]
      rw [hinv x y hx hy, hinv x a hx hab.1, hinv y b hy hab.2,
        hinv x b hx hab.2, hinv y a hy hab.1]
      constructor
      · rintro (h1 | ⟨h1, h2⟩ | ⟨h1, h2⟩)
        · exact Or.inl h1
        · exact Or.inr (Or.inl ⟨h1, connE_symm h2⟩)
        · exact Or.inr (Or.inr ⟨h1, connE_symm h2⟩)
      · rintro (h1 | ⟨h1, h2⟩ | ⟨h1, h2⟩)
        · exact Or.inl h1
        · exact Or.inr (Or.inl ⟨h1, connE_symm h2⟩)
        · exact Or.inr (Or.inr ⟨h1, connE_symm h2⟩)
    have hends' : ∀ e, e ∈ E2 → e.1 ∈ names ∧ e.2 ∈ names :=
      fun e he => hends e (List.mem_cons_of_mem _ he)
    obtain ⟨hwfR, hinvR⟩ := ih (ufUnion fuel p a b) (E1 ++ [(a, b)]) hwfU hinv' hends'
    refine ⟨hwfR, ?_⟩
    intro x y hx hy
    rw [show (E1 ++ (a, b) :: E2) = ((E1 ++ [(a, b)]) ++ E2) by
      rw [List.append_assoc, List.singleton_append]]
    exact hinvR x y hx hy

theorem ufAfterUnions_foldEdges (structR : StructureResult)
    (m : List (String × NamespaceInfo)) :
    ∀ (ns : List String) (fuel : Nat) (init : String → String),
      ns.foldl
        (fun p n =>
          ((structR.dependencyMap n).filter (fun d => (m.lookup d).isSome)).foldl
            (fun p d => ufUnion fuel p n d) p)
        init =
      (ufEdges structR m ns).foldl (fun q e => ufUnion fuel q e.1 e.2) init := by
  intro ns
  induction ns with
  | nil => intro fuel init; rfl
  | cons n ns ih =>
    intro fuel init
    rw [List.foldl_cons]
    rw [ih fuel _]
    have hedges : ufEdges structR m (n :: ns) =
        ((structR.dependencyMap n).filter (fun d => (m.lookup d).isSome)).map
          (fun d => (n, d)) ++ ufEdges structR m ns := rfl
    rw [hedges, List.foldl_append, List.foldl_map]

theorem mem_ufEdges (structR : StructureResult)
    (m : List (String × NamespaceInfo)) :
    ∀ (ns : List String) (u v : String),
      (u, v) ∈ ufEdges structR m ns ↔
        (u ∈ ns ∧
          v ∈ (structR.dependencyMap u).filter (fun d => (m.lookup d).isSome)) := by
  intro ns
  induction ns with
  | nil =>
    intro u v
    simp [ufEdges]
  | cons n ns ih =>
    intro u v
    have hedges : ufEdges structR m (n :: ns) =
        ((structR.dependencyMap n).filter (fun d => (m.lookup d).isSome)).map
          (fun d => (n, d)) ++ ufEdges structR m ns := rfl
    rw [hedges]
    rw [List.mem_append]
    constructor
    · rintro (h | h)
      · rw [List.mem_map] at h
        obtain ⟨d, hd, hdv⟩ := h
        rw [Prod.mk.injEq] at hdv
        obtain ⟨hnu, hdv⟩ := hdv
        subst hnu
        subst hdv
        exact ⟨List.mem_cons_self _ _, hd⟩
      · obtain ⟨h1, h2⟩ := (ih u v).mp h
        exact ⟨List.mem_cons_of_mem _ h1, h2⟩
    · rintro ⟨h1, h2⟩
      rw [List.mem_cons] at h1
      rcases h1 with h1 | h1
      · subst h1
        exact Or.inl (List.mem_map.mpr ⟨v, h2, rfl⟩)
      · exact Or.inr ((ih u v).mpr ⟨h1, h2⟩)



-- ======== dict (association-list) lemmas ========

theorem lookup_isSome_iff {β : Type} (m : List (String × β)) (x : String) :
    (m.lookup x).isSome ↔ x ∈ m.map Prod.fst := by
  induction m with
  | nil => simp
  | cons q m ih =>
    rcases q with ⟨k, v⟩
    by_cases hxk : x = k
    · subst hxk
      simp [List.lookup]
    · have hbeq : (x == k) = false := beq_eq_false_iff_ne.mpr hxk
      rw [List.lookup, hbeq]
      show (m.lookup x).isSome ↔ x ∈ ((k, v) :: m).map Prod.fst
      simp only [List.map_cons, List.mem_cons]
      rw [ih]
      constructor
      · exact Or.inr
      · rintro (h | h)
        · exact absurd h hxk
        · exact h

theorem lookup_mem {β : Type} {m : List (String × β)} {x : String} {v : β}
    (h : m.lookup x = some v) : (x, v) ∈ m := by
  induction m with
  | nil => simp [List.lookup] at h
  | cons q m ih =>
    rcases q with ⟨k, w⟩
    by_cases hxk : x = k
    · subst hxk
      have hbeq : (x == x) = true := beq_self_eq_true x
      rw [List.lookup, hbeq] at h
      have h2 : some w = some v := h
      injection h2 with h2
      subst h2
      exact List.mem_cons_self _ _
    · have hbeq : (x == k) = false := beq_eq_false_iff_ne.mpr hxk
      rw [List.lookup, hbeq] at h
      have h2 : m.lookup x = some v := h
      exact List.mem_cons_of_mem _ (ih h2)

theorem dictInsert_keys {β : Type} (m : List (String × β)) (k : String) (v : β)
    (x : String) :
    x ∈ (dictInsert m k v).map Prod.fst ↔ (x ∈ m.map Prod.fst ∨ x = k) := by
  rw [dictInsert]
  by_cases hp : (m.lookup k).isSome
  · rw [if_pos hp]
    have hmap : (m.map (fun q => if q.1 = k then (q.1, v) else q)).map Prod.fst =
        m.map Prod.fst := by
      rw [List.map_map]
      apply List.map_congr_left
      intro q _
      show ((if q.1 = k then (q.1, v) else q) : String × β).1 = q.1
      by_cases hq : q.1 = k
      · rw [if_pos hq]
      · rw [if_neg hq]
    rw [hmap]
    constructor
    · exact Or.inl
    · rintro (h | h)
      · exact h
      · subst h
        exact (lookup_isSome_iff m x).mp hp
  · rw [if_neg hp]
    simp only [List.map_append, List.map_cons, List.map_nil, List.mem_append,
      List.mem_cons, List.not_mem_nil, or_false]

theorem dictInsert_keys_nodup {β : Type} {m : List (String × β)} (k : String)
    (v : β) (h : (m.map Prod.fst).Nodup) :
    ((dictInsert m k v).map Prod.fst).Nodup := by
  rw [dictInsert]
  by_cases hp : (m.lookup k).isSome
  · rw [if_pos hp]
    have hmap : (m.map (fun q => if q.1 = k then (q.1, v) else q)).map Prod.fst =
        m.map Prod.fst := by
      rw [List.map_map]
      apply List.map_congr_left
      intro q _
      show ((if q.1 = k then (q.1, v) else q) : String × β).1 = q.1
      by_cases hq : q.1 = k
      · rw [if_pos hq]
      · rw [if_neg hq]
    rw [hmap]
    exact h
  · rw [if_neg hp]
    rw [List.map_append]
    rw [List.nodup_append]
    refine ⟨h, by simp, ?_⟩
    intro x hx
    simp only [List.map_cons, List.map_nil, List.mem_cons, List.not_mem_nil,
      or_false]
    intro hxk
    subst hxk
    exact hp ((lookup_isSome_iff m x).mpr hx)

theorem pySorted_mem (l : List String) (x : String) :
    x ∈ pySorted l ↔ x ∈ l :=
  (List.perm_insertionSort strLe l).mem_iff

theorem pySorted_nodup {l : List String} (h : l.Nodup) :
    (pySorted l).Nodup :=
  ((List.perm_insertionSort strLe l).nodup_iff).mpr h

theorem nsByName_aux_keys :
    ∀ (l : List NamespaceInfo) (acc : List (String × NamespaceInfo)) (x : String),
      (x ∈ (l.foldl (fun m ns => dictInsert m ns.name ns) acc).map Prod.fst ↔
        (x ∈ acc.map Prod.fst ∨ x ∈ l.map NamespaceInfo.name)) := by
  intro l
  induction l with
  | nil =>
    intro acc x
    simp
  | cons ns l ih =>
    intro acc x
    rw [List.foldl_cons]
    rw [ih]
    rw [dictInsert_keys]
    simp only [List.map_cons, List.mem_cons]
    tauto

theorem nsByName_keys (l : List NamespaceInfo) (x : String) :
    x ∈ (nsByName l).map Prod.fst ↔ x ∈ l.map NamespaceInfo.name := by
  rw [nsByName, nsByName_aux_keys]
  simp

theorem nsByName_aux_nodup :
    ∀ (l : List NamespaceInfo) (acc : List (String × NamespaceInfo)),
      (acc.map Prod.fst).Nodup →
      ((l.foldl (fun m ns => dictInsert m ns.name ns) acc).map Prod.fst).Nodup := by
  intro l
  induction l with
  | nil => intro acc h; exact h
  | cons ns l ih =>
    intro acc h
    rw [List.foldl_cons]
    exact ih _ (dictInsert_keys_nodup _ _ h)

theorem nsByName_keys_nodup (l : List NamespaceInfo) :
    ((nsByName l).map Prod.fst).Nodup :=
  nsByName_aux_nodup l [] (by simp)

theorem nsByName_aux_namev :
    ∀ (l : List NamespaceInfo) (acc : List (String × NamespaceInfo)),
      (∀ q, q ∈ acc → q.2.name = q.1) →
      ∀ q, q ∈ l.foldl (fun m ns => dictInsert m ns.name ns) acc →
        q.2.name = q.1 := by
  intro l
  induction l with
  | nil => intro acc h; exact h
  | cons ns l ih =>
    intro acc h
    rw [List.foldl_cons]
    apply ih
    intro q hq
    rw [dictInsert] at hq
    by_cases hp : (acc.lookup ns.name).isSome
    · rw [if_pos hp] at hq
      rw [List.mem_map] at hq
      obtain ⟨q0, hq0, hq0e⟩ := hq
      by_cases hk : q0.1 = ns.name
      · rw [if_pos hk] at hq0e
        rw [← hq0e]
        exact hk.symm
      · rw [if_neg hk] at hq0e
        rw [← hq0e]
        exact h q0 hq0
    · rw [if_neg hp] at hq
      rw [List.mem_append] at hq
      rcases hq with hq | hq
      · exact h q hq
      · simp only [List.mem_cons, List.not_mem_nil, or_false] at hq
        subst hq
        rfl

theorem nsByName_lookup_name {l : List NamespaceInfo} {n : String}
    {v : NamespaceInfo} (h : (nsByName l).lookup n = some v) : v.name = n :=
  nsByName_aux_namev l [] (by simp) (n, v) (lookup_mem h)



-- ======== component collection ========

theorem lookup_map_update (m : List (String × List String)) (k : String)
    (n : String) :
    ((m.map (fun q => if q.1 = k then (q.1, q.2 ++ [n]) else q)).lookup k) =
      (m.lookup k).map (fun l => l ++ [n]) := by
  induction m with
  | nil => rfl
  | cons q m ih =>
    rcases q with ⟨a, b⟩
    rw [List.map_cons]
    by_cases hak : a = k
    · subst hak
      have hupd : (if ((a, b) : String × List String).1 = a
          then (((a, b) : String × List String).1, ((a, b) : String × List String).2 ++ [n])
          else ((a, b) : String × List String)) = (a, b ++ [n]) := by
        rw [if_pos rfl]
      rw [hupd, List.lookup, List.lookup, beq_self_eq_true]
      rfl
    · have hupd : (if ((a, b) : String × List String).1 = k
          then (((a, b) : String × List String).1, ((a, b) : String × List String).2 ++ [n])
          else ((a, b) : String × List String)) = (a, b) := by
        rw [if_neg hak]
      have hbeq : (k == a) = false := beq_eq_false_iff_ne.mpr (fun h => hak h.symm)
      rw [hupd, List.lookup, List.lookup, hbeq]
      exact ih

theorem lookup_map_update_other (m : List (String × List String)) {k : String}
    (n : String) {x : String} (hxk : x ≠ k) :
    ((m.map (fun q => if q.1 = k then (q.1, q.2 ++ [n]) else q)).lookup x) =
      m.lookup x := by
  induction m with
  | nil => rfl
  | cons q m ih =>
    rcases q with ⟨a, b⟩
    rw [List.map_cons]
    by_cases hak : a = k
    · subst hak
      have hupd : (if ((a, b) : String × List String).1 = a
          then (((a, b) : String × List String).1, ((a, b) : String × List String).2 ++ [n])
          else ((a, b) : String × List String)) = (a, b ++ [n]) := by
        rw [if_pos rfl]
      have hbeq : (x == a) = false := beq_eq_false_iff_ne.mpr hxk
      rw [hupd, List.lookup, List.lookup, hbeq]
      exact ih
    · have hupd : (if ((a, b) : String × List String).1 = k
          then (((a, b) : String × List String).1, ((a, b) : String × List String).2 ++ [n])
          else ((a, b) : String × List String)) = (a, b) := by
        rw [if_neg hak]
      rw [hupd, List.lookup, List.lookup]
      by_cases hxa : x = a
      · subst hxa
        rw [beq_self_eq_true]
      · have hbeq : (x == a) = false := beq_eq_false_iff_ne.mpr hxa
        rw [hbeq]
        exact ih

theorem lookup_append_some {β : Type} {m : List (String × β)} {x : String}
    {v : β} (h : m.lookup x = some v) (m2 : List (String × β)) :
    (m ++ m2).lookup x = some v := by
  induction m with
  | nil => simp [List.lookup] at h
  | cons q m ih =>
    rcases q with ⟨a, b⟩
    rw [List.lookup] at h
    rw [List.cons_append, List.lookup]
    by_cases hxa : x = a
    · subst hxa
      rw [beq_self_eq_true] at h ⊢
      exact h
    · have hbeq : (x == a) = false := beq_eq_false_iff_ne.mpr hxa
      rw [hbeq] at h ⊢
      exact ih h

theorem lookup_append_none {β : Type} {m : List (String × β)} {x : String}
    (h : m.lookup x = none) (m2 : List (String × β)) :
    (m ++ m2).lookup x = m2.lookup x := by
  induction m with
  | nil => rfl
  | cons q m ih =>
    rcases q with ⟨a, b⟩
    rw [List.lookup] at h
    rw [List.cons_append, List.lookup]
    by_cases hxa : x = a
    · subst hxa
      rw [beq_self_eq_true] at h ⊢
      exact absurd h (by simp)
    · have hbeq : (x == a) = false := beq_eq_false_iff_ne.mpr hxa
      rw [hbeq] at h ⊢
      exact ih h

theorem compsAdd_lookup_self (m : List (String × List String)) (k n : String) :
    (compsAdd m k n).lookup k = some (((m.lookup k).getD []) ++ [n]) := by
  rw [compsAdd]
  by_cases hp : (m.lookup k).isSome
  · rw [if_pos hp]
    rw [lookup_map_update]
    obtain ⟨l, hl⟩ := Option.isSome_iff_exists.mp hp
    rw [hl]
    rfl
  · rw [if_neg hp]
    have hnone : m.lookup k = none := Option.not_isSome_iff_eq_none.mp hp
    rw [lookup_append_none hnone]
    rw [hnone]
    rw [List.lookup, beq_self_eq_true]
    rfl

theorem compsAdd_lookup_other (m : List (String × List String)) {k : String}
    (n : String) {x : String} (hxk : x ≠ k) :
    (compsAdd m k n).lookup x = m.lookup x := by
  rw [compsAdd]
  by_cases hp : (m.lookup k).isSome
  · rw [if_pos hp]
    exact lookup_map_update_other m n hxk
  · rw [if_neg hp]
    cases hx : m.lookup x with
    | some l =>
      exact lookup_append_some hx _
    | none =>
      rw [lookup_append_none hx]
      rw [List.lookup]
      have hbeq2 : (x == k) = false := beq_eq_false_iff_ne.mpr hxk
      rw [hbeq2]
      rfl

theorem compsAdd_keys (m : List (String × List String)) (k n : String)
    (x : String) :
    x ∈ (compsAdd m k n).map Prod.fst ↔ (x ∈ m.map Prod.fst ∨ x = k) := by
  rw [compsAdd]
  by_cases hp : (m.lookup k).isSome
  · rw [if_pos hp]
    have hmap : (m.map (fun q => if q.1 = k then (q.1, q.2 ++ [n]) else q)).map
        Prod.fst = m.map Prod.fst := by
      rw [List.map_map]
      apply List.map_congr_left
      intro q _
      show ((if q.1 = k then (q.1, q.2 ++ [n]) else q) :
        String × List String).1 = q.1
      by_cases hq : q.1 = k
      · rw [if_pos hq]
      · rw [if_neg hq]
    rw [hmap]
    constructor
    · exact Or.inl
    · rintro (h | h)
      · exact h
      · subst h
        exact (lookup_isSome_iff m x).mp hp
  · rw [if_neg hp]
    simp only [List.map_append, List.map_cons, List.map_nil, List.mem_append,
      List.mem_cons, List.not_mem_nil, or_false]

theorem compsAdd_keys_nodup {m : List (String × List String)} (k n : String)
    (h : (m.map Prod.fst).Nodup) :
    ((compsAdd m k n).map Prod.fst).Nodup := by
  rw [compsAdd]
  by_cases hp : (m.lookup k).isSome
  · rw [if_pos hp]
    have hmap : (m.map (fun q => if q.1 = k then (q.1, q.2 ++ [n]) else q)).map
        Prod.fst = m.map Prod.fst := by
      rw [List.map_map]
      apply List.map_congr_left
      intro q _
      show ((if q.1 = k then (q.1, q.2 ++ [n]) else q) :
        String × List String).1 = q.1
      by_cases hq : q.1 = k
      · rw [if_pos hq]
      · rw [if_neg hq]
    rw [hmap]
    exact h
  · rw [if_neg hp]
    rw [List.map_append, List.nodup_append]
    refine ⟨h, by simp, ?_⟩
    intro x hx
    simp only [List.map_cons, List.map_nil, List.mem_cons, List.not_mem_nil,
      or_false]
    intro hxk
    subst hxk
    exact hp ((lookup_isSome_iff m x).mpr hx)



theorem ufComponents_fold_inv {names : List String} {fuel : Nat}
    (hfuel : names.length ≤ fuel) (pf : String → String) :
    ∀ (ns : List String) (q : String → String)
      (comps : List (String × List String)) (processed : List String),
      (∀ x, x ∈ ns → x ∈ names) →
      (processed ++ ns).Nodup →
      UFWf names q →
      (∀ y r, ReachesRoot q y r ↔ ReachesRoot pf y r) →
      ((comps.map Prod.fst).Nodup) →
      (∀ r x, x ∈ ((comps.lookup r).getD []) ↔
        (x ∈ processed ∧ ReachesRoot pf x r)) →
      (∀ r, ((comps.lookup r).getD []).Nodup) →
      (((ns.foldl
          (fun st n =>
            let fr := ufFind fuel st.1 n
            (fr.1, compsAdd st.2 fr.2 n))
          (q, comps)).2.map Prod.fst).Nodup) ∧
      (∀ r x, x ∈ (((ns.foldl
          (fun st n =>
            let fr := ufFind fuel st.1 n
            (fr.1, compsAdd st.2 fr.2 n))
          (q, comps)).2.lookup r).getD []) ↔
        (x ∈ processed ++ ns ∧ ReachesRoot pf x r)) ∧
      (∀ r, (((ns.foldl
          (fun st n =>
            let fr := ufFind fuel st.1 n
            (fr.1, compsAdd st.2 fr.2 n))
          (q, comps)).2.lookup r).getD []).Nodup) := by
  intro ns
  induction ns with
  | nil =>
    intro q comps processed hsub hnd hwf hiffq hknd hmem hmnd
    rw [List.foldl_nil]
    refine ⟨hknd, ?_, hmnd⟩
    intro r x
    rw [List.append_nil]
    exact hmem r x
  | cons n ns ih =>
    intro q comps processed hsub hnd hwf hiffq hknd hmem hmnd
    rw [List.foldl_cons]
    have hn : n ∈ names := hsub n (List.mem_cons_self _ _)
    obtain ⟨hwf', hiff', hroot'⟩ := ufFind_spec hwf hn hfuel
    have hrootpf : ReachesRoot pf n (ufFind fuel q n).2 :=
      (hiffq n _).mp hroot'
    have hnproc : n ∉ processed := by
      intro hc
      rw [List.nodup_append] at hnd
      exact hnd.2.2 hc (List.mem_cons_self _ _)
    have hmem' : ∀ r x,
        x ∈ (((compsAdd comps (ufFind fuel q n).2 n).lookup r).getD []) ↔
          (x ∈ processed ++ [n] ∧ ReachesRoot pf x r) := by
      intro r x
      by_cases hr : r = (ufFind fuel q n).2
      · subst hr
        rw [compsAdd_lookup_self]
        rw [Option.getD_some]
        rw [List.mem_append, List.mem_singleton]
        rw [hmem]
        constructor
        · rintro (⟨h1, h2⟩ | h1)
          · exact ⟨List.mem_append.mpr (Or.inl h1), h2⟩
          · subst h1
            exact ⟨List.mem_append.mpr (Or.inr (List.mem_singleton.mpr rfl)),
              hrootpf⟩
        · rintro ⟨h1, h2⟩
          rw [List.mem_append, List.mem_singleton] at h1
          rcases h1 with h1 | h1
          · exact Or.inl ⟨h1, h2⟩
          · exact Or.inr h1
      · rw [compsAdd_lookup_other _ _ hr]
        rw [hmem]
        constructor
        · rintro ⟨h1, h2⟩
          exact ⟨List.mem_append.mpr (Or.inl h1), h2⟩
        · rintro ⟨h1, h2⟩
          rw [List.mem_append, List.mem_singleton] at h1
          rcases h1 with h1 | h1
          · exact ⟨h1, h2⟩
          · subst h1
            exact absurd (reachesRoot_unique h2 hrootpf) hr
    have hmnd' : ∀ r,
        (((compsAdd comps (ufFind fuel q n).2 n).lookup r).getD []).Nodup := by
      intro r
      by_cases hr : r = (ufFind fuel q n).2
      · subst hr
        rw [compsAdd_lookup_self, Option.getD_some]
        rw [List.nodup_append]
        refine ⟨hmnd _, by simp, ?_⟩
        intro x hx
        rw [List.mem_singleton]
        intro hxn
        subst hxn
        exact hnproc ((hmem _ x).mp hx).1
      · rw [compsAdd_lookup_other _ _ hr]
        exact hmnd r
    have hnd2 : ((processed ++ [n]) ++ ns).Nodup := by
      rw [List.append_assoc, List.singleton_append]
      exact hnd
    have hiffq2 : ∀ y r, ReachesRoot (ufFind fuel q n).1 y r ↔
        ReachesRoot pf y r := fun y r => (hiff' y r).trans (hiffq y r)
    obtain ⟨hk2, hm2, hn2⟩ := ih (ufFind fuel q n).1
      (compsAdd comps (ufFind fuel q n).2 n) (processed ++ [n])
      (fun x hx => hsub x (List.mem_cons_of_mem _ hx)) hnd2 hwf' hiffq2
      (compsAdd_keys_nodup _ _ hknd) hmem' hmnd'
    refine ⟨hk2, ?_, hn2⟩
    intro r x
    rw [hm2 r x]
    rw [List.append_assoc, List.singleton_append]



-- ======== final assembly helpers ========

theorem countP_eq_one {α : Type} :
    ∀ (l : List α) (p : α → Bool) (a : α), l.Nodup → a ∈ l →
      (∀ b, b ∈ l → (p b = true ↔ b = a)) → l.countP p = 1 := by
  intro l
  induction l with
  | nil => intro p a _ ha; simp at ha
  | cons x l ih =>
    intro p a hnd ha hp
    have hxl : x ∉ l := (List.nodup_cons.mp hnd).1
    have hndl : l.Nodup := (List.nodup_cons.mp hnd).2
    rw [List.mem_cons] at ha
    rcases ha with ha | ha
    · subst ha
      rw [List.countP_cons_of_pos _ _ ((hp _ (List.mem_cons_self _ _)).mpr rfl)]
      have hz : l.countP p = 0 := by
        rw [List.countP_eq_zero]
        intro b hb hpb
        rw [hp b (List.mem_cons_of_mem _ hb)] at hpb
        subst hpb
        exact hxl hb
      omega
    · have hpx : ¬ p x = true := by
        intro hc
        rw [hp x (List.mem_cons_self _ _)] at hc
        subst hc
        exact hxl ha
      rw [List.countP_cons_of_neg _ _ hpx]
      exact ih p a hndl ha (fun b hb => hp b (List.mem_cons_of_mem _ hb))

theorem filterMap_lookup_names {m : List (String × NamespaceInfo)}
    (hnm : ∀ x v, m.lookup x = some v → v.name = x) :
    ∀ (l : List String), (∀ x, x ∈ l → (m.lookup x).isSome) →
      ((l.filterMap (fun n => m.lookup n)).map NamespaceInfo.name) = l := by
  intro l
  induction l with
  | nil => intro _; rfl
  | cons x l ih =>
    intro h
    obtain ⟨v, hv⟩ := Option.isSome_iff_exists.mp (h x (List.mem_cons_self _ _))
    rw [List.filterMap_cons, hv]
    rw [List.map_cons]
    rw [hnm x v hv]
    rw [ih (fun y hy => h y (List.mem_cons_of_mem _ hy))]

theorem memberNames_mkFlowGroup (structR : StructureResult)
    {l : List NamespaceInfo} {comps : List (String × List String)} (r : String)
    (h : ∀ x, x ∈ (comps.lookup r).getD [] → ((nsByName l).lookup x).isSome) :
    memberNames (mkFlowGroup structR (nsByName l) comps r) =
      (comps.lookup r).getD [] := by
  show (((comps.lookup r).getD []).filterMap
      (fun n => (nsByName l).lookup n)).map NamespaceInfo.name =
    (comps.lookup r).getD []
  exact filterMap_lookup_names (fun x v hv => nsByName_lookup_name hv) _ h

theorem mem_of_getD_lookup {comps : List (String × List String)} {r x : String}
    (h : x ∈ (comps.lookup r).getD []) : r ∈ comps.map Prod.fst := by
  cases hl : comps.lookup r with
  | none =>
    rw [hl] at h
    simp at h
  | some l =>
    exact (lookup_isSome_iff comps r).mp (by rw [hl]; rfl)

theorem connE_congr {E : List (String × String)} {R : String → String → Prop}
    (h : ∀ u v, (u, v) ∈ E ↔ R u v) (x y : String) :
    ConnE E x y ↔ Relation.ReflTransGen (fun u v => R u v ∨ R v u) x y := by
  constructor
  · refine Relation.ReflTransGen.mono ?_
    intro u v huv
    rcases huv with h1 | h1
    · exact Or.inl ((h u v).mp h1)
    · exact Or.inr ((h v u).mp h1)
  · refine Relation.ReflTransGen.mono ?_
    intro u v huv
    rcases huv with h1 | h1
    · exact Or.inl ((h u v).mpr h1)
    · exact Or.inr ((h v u).mpr h1)



set_option maxHeartbeats 1000000 in
/-- C1: `partition_flow_groups` returns groups whose member-name lists form an
exact partition of the input namespace set (every input name appears in
exactly one group, no omissions, no duplicates), and two input names land in
the same group iff they are connected by a path of dependency edges traversed
in either direction among known namespaces. -/
theorem c1_partition_exact_and_connected (structR : StructureResult) :
    (∀ n, (partitionFlowGroups structR).countP
        (fun g => decide (n ∈ memberNames g)) =
      if n ∈ inputNames structR then 1 else 0) ∧
    (∀ g, g ∈ partitionFlowGroups structR → (memberNames g).Nodup) ∧
    (∀ a b, a ∈ inputNames structR → b ∈ inputNames structR →
      ((∃ g, g ∈ partitionFlowGroups structR ∧
          a ∈ memberNames g ∧ b ∈ memberNames g) ↔
        depConnected structR a b)) := by
  by_cases hempty : structR.namespaces = []
  · have hpfg : partitionFlowGroups structR = [] := by
      simp only [partitionFlowGroups]
      rw [if_pos hempty]
    have hinp : inputNames structR = [] := by
      rw [inputNames, hempty]
      rfl
    refine ⟨?_, ?_, ?_⟩
    · intro n
      rw [hpfg, hinp]
      simp
    · intro g hg
      rw [hpfg] at hg
      simp at hg
    · intro a b ha _
      rw [hinp] at ha
      simp at ha
  · set m := nsByName structR.namespaces with hm
    set allNames := pySorted (m.map Prod.fst) with hallN
    set fuel := allNames.length with hfuel
    set p1 := ufAfterUnions structR m allNames fuel with hp1
    set comps := (ufComponents allNames fuel p1).2 with hcomps
    set roots := pySorted (comps.map Prod.fst) with hroots
    have hpfg : partitionFlowGroups structR =
        roots.map (mkFlowGroup structR m comps) := by
      simp only [partitionFlowGroups]
      rw [if_neg hempty]
    have hfuelLe : allNames.length ≤ fuel := Nat.le_of_eq hfuel.symm
    have hndAll : allNames.Nodup := by
      rw [hallN]
      exact pySorted_nodup (by rw [hm]; exact nsByName_keys_nodup _)
    have hmemAll : ∀ x, x ∈ allNames ↔ x ∈ inputNames structR := by
      intro x
      rw [hallN, hm]
      exact (pySorted_mem _ x).trans (nsByName_keys _ x)
    have hends : ∀ e, e ∈ ufEdges structR m allNames →
        e.1 ∈ allNames ∧ e.2 ∈ allNames := by
      intro e he
      rcases e with ⟨u, v⟩
      rw [mem_ufEdges] at he
      obtain ⟨h1, h2⟩ := he
      rw [List.mem_filter] at h2
      refine ⟨h1, ?_⟩
      have hv : v ∈ m.map Prod.fst := (lookup_isSome_iff m v).mp h2.2
      rw [hallN]
      exact (pySorted_mem _ v).mpr hv
    have hinv0 : ∀ x y, x ∈ allNames → y ∈ allNames →
        (sameClass (fun x => x) x y ↔ ConnE [] x y) :=
      fun x y _ _ => (sameClass_id x y).trans connE_nil.symm
    have hp1eq : p1 = (ufEdges structR m allNames).foldl
        (fun q e => ufUnion fuel q e.1 e.2) (fun x => x) := by
      rw [hp1]
      exact ufAfterUnions_foldEdges structR m allNames fuel (fun x => x)
    obtain ⟨hwf1, hinv1⟩ := uf_fold_edges hfuelLe
      (ufEdges structR m allNames) (fun x => x) [] (ufwf_id _) hinv0 hends
    rw [← hp1eq] at hwf1 hinv1
    simp only [List.nil_append] at hinv1
    have hedge : ∀ u v, ((u, v) ∈ ufEdges structR m allNames) ↔
        depEdge structR u v := by
      intro u v
      rw [mem_ufEdges, List.mem_filter]
      simp only [depEdge]
      constructor
      · rintro ⟨h1, h2, h3⟩
        refine ⟨(hmemAll u).mp h1, ?_, h2⟩
        have hv : v ∈ m.map Prod.fst := (lookup_isSome_iff m v).mp h3
        exact (hmemAll v).mp (by rw [hallN]; exact (pySorted_mem _ v).mpr hv)
      · rintro ⟨h1, h2, h3⟩
        refine ⟨(hmemAll u).mpr h1, h3, ?_⟩
        apply (lookup_isSome_iff m v).mpr
        have hv : v ∈ allNames := (hmemAll v).mpr h2
        rw [hallN] at hv
        exact (pySorted_mem _ v).mp hv
    have hConnDep : ∀ x y, ConnE (ufEdges structR m allNames) x y ↔
        depConnected structR x y := fun x y => connE_congr hedge x y
    obtain ⟨hknd, hmems, hmnd⟩ := ufComponents_fold_inv
      hfuelLe p1 allNames p1 [] [] (fun x hx => hx) (by simpa using hndAll)
      hwf1 (fun y r => Iff.rfl) (by simp)
      (by intro r x; simp [List.lookup]) (by intro r; simp [List.lookup])
    have hcompsEq : (allNames.foldl
        (fun st n =>
          let fr := ufFind fuel st.1 n
          (fr.1, compsAdd st.2 fr.2 n))
        (p1, [])).2 = comps := by
      rw [hcomps]
      rfl
    rw [hcompsEq] at hknd hmems hmnd
    simp only [List.nil_append] at hmems
    have hndRoots : roots.Nodup := by
      rw [hroots]
      exact pySorted_nodup hknd
    have hmemRootsKeys : ∀ r, r ∈ roots ↔ r ∈ comps.map Prod.fst := by
      intro r
      rw [hroots]
      exact pySorted_mem _ r
    have hlookAll : ∀ r x, x ∈ (comps.lookup r).getD [] →
        (m.lookup x).isSome := by
      intro r x hx
      apply (lookup_isSome_iff m x).mpr
      have hxAll : x ∈ allNames := ((hmems r x).mp hx).1
      rw [hallN] at hxAll
      exact (pySorted_mem _ x).mp hxAll
    have hmn : ∀ r, memberNames (mkFlowGroup structR m comps r) =
        (comps.lookup r).getD [] := by
      intro r
      rw [hm]
      exact memberNames_mkFlowGroup structR r (by rw [← hm]; exact hlookAll r)
    refine ⟨?_, ?_, ?_⟩
    · intro n
      rw [hpfg, List.countP_map]
      by_cases hn : n ∈ inputNames structR
      · rw [if_pos hn]
        have hnAll : n ∈ allNames := (hmemAll n).mpr hn
        obtain ⟨rn, hrn⟩ := exists_root hwf1 hnAll
        have hnmem : n ∈ (comps.lookup rn).getD [] :=
          (hmems rn n).mpr ⟨hnAll, hrn⟩
        apply countP_eq_one roots _ rn hndRoots
          ((hmemRootsKeys rn).mpr (mem_of_getD_lookup hnmem))
        intro r hr
        show decide (n ∈ memberNames (mkFlowGroup structR m comps r)) = true ↔
          r = rn
        rw [decide_eq_true_eq, hmn r, hmems r n]
        constructor
        · rintro ⟨_, h2⟩
          exact reachesRoot_unique h2 hrn
        · intro h
          subst h
          exact ⟨hnAll, hrn⟩
      · rw [if_neg hn]
        rw [List.countP_eq_zero]
        intro r hr
        show ¬ decide (n ∈ memberNames (mkFlowGroup structR m comps r)) = true
        rw [decide_eq_true_eq, hmn r]
        intro hc
        exact hn ((hmemAll n).mp ((hmems r n).mp hc).1)
    · intro g hg
      rw [hpfg, List.mem_map] at hg
      obtain ⟨r, hr, rfl⟩ := hg
      rw [hmn r]
      exact hmnd r
    · intro a b ha hb
      have haAll : a ∈ allNames := (hmemAll a).mpr ha
      have hbAll : b ∈ allNames := (hmemAll b).mpr hb
      constructor
      · rintro ⟨g, hg, hag, hbg⟩
        rw [hpfg, List.mem_map] at hg
        obtain ⟨r, hr, rfl⟩ := hg
        rw [hmn r] at hag hbg
        have hra := ((hmems r a).mp hag).2
        have hrb := ((hmems r b).mp hbg).2
        have hsc : sameClass p1 a b := ⟨r, hra, hrb⟩
        rw [hinv1 a b haAll hbAll] at hsc
        exact (hConnDep a b).mp hsc
      · intro hdep
        have hsc : sameClass p1 a b := by
          rw [hinv1 a b haAll hbAll]
          exact (hConnDep a b).mpr hdep
        obtain ⟨r, hra, hrb⟩ := hsc
        have hamem : a ∈ (comps.lookup r).getD [] :=
          (hmems r a).mpr ⟨haAll, hra⟩
        have hbmem : b ∈ (comps.lookup r).getD [] :=
          (hmems r b).mpr ⟨hbAll, hrb⟩
        refine ⟨mkFlowGroup structR m comps r, ?_, ?_, ?_⟩
        · rw [hpfg, List.mem_map]
          exact ⟨r, (hmemRootsKeys r).mpr (mem_of_getD_lookup hamem), rfl⟩
        · rw [hmn r]
          exact hamem
        · rw [hmn r]
          exact hbmem



/-- Witness for C1 at a concrete structure: the logic namespace lies in
exactly one group, and it shares a group with the adapter it requires. -/
theorem c1_partition_witness :
    (partitionFlowGroups structC1).countP
        (fun g => decide (("svc.logic.pay" : String) ∈ memberNames g)) = 1 ∧
    (∃ g, g ∈ partitionFlowGroups structC1 ∧
      ("svc.logic.pay" : String) ∈ memberNames g ∧
      ("svc.adapter.pay" : String) ∈ memberNames g) := by
  obtain ⟨h1, h2, h3⟩ := c1_partition_exact_and_connected structC1
  constructor
  · have hc := h1 ("svc.logic.pay")
    rw [if_pos (by decide)] at hc
    exact hc
  · apply (h3 ("svc.logic.pay") ("svc.adapter.pay") (by decide) (by decide)).mpr
    exact Relation.ReflTransGen.single
      (Or.inl ⟨by decide, by decide, by decide⟩)



end Nuclode

